import Mathlib

/-!
Verification of the Cross Based Cost Aggregation (CBCA) module of the Pandora
stereo-matching repository (file pandora/aggregation/cbca.py).

Shallow embedding conventions:
* numpy float32 matrices are modelled as lists of rows over ℚ; cost-volume
  cells that may hold NaN are modelled as `Option ℚ` where `none` stands for
  a non-finite (NaN / masked-to-inf) value and `some v` for a finite value.
  Floating point rounding is abstracted away: all claims checked here are
  structural (which cells are written, with which closed-form expressions),
  not about rounding error.
* Reads outside the allocated shape return the respective zero defaults; the
  Python code never performs such reads on the executions the theorems talk
  about (numpy would raise), and negative indices reproduce numpy's
  wrap-around behaviour, which `cbca_step_1` / `cbca_step_3` rely on for
  their sentinel column / row.
* Imperative `for` loops that write into preallocated arrays are embedded as
  left folds over the iteration space, each iteration performing the same
  write as the Python loop body.
-/

namespace Cbca

/-- 2D float matrix (row-major list of rows), numpy `f4[:, :]`. -/
abbrev Mat := List (List ℚ)

/-- 2D cost matrix whose cells may be NaN (`none`). -/
abbrev OMat := List (List (Option ℚ))

/-- One cell of the cross-support tensor: the four arm lengths
`[left, right, top, bot]` (numpy `i2`, modelled over ℤ). -/
structure Arms where
  left : ℤ
  right : ℤ
  top : ℤ
  bot : ℤ
deriving DecidableEq

/-- Cross-support tensor, numpy `i2[:, :, 4]`. -/
abbrev Cross := List (List Arms)

/-- Matrix read `m[y, x]` with 0 default outside the allocated shape. -/
def mget (m : Mat) (y x : ℕ) : ℚ := (m.getD y []).getD x 0

/-- Matrix write `m[y, x] = v` (no-op outside the allocated shape, which the
embedded loops never do on the runs described by the theorems). -/
def mset (m : Mat) (y x : ℕ) (v : ℚ) : Mat := m.set y ((m.getD y []).set x v)

/-- Read of an optionally-NaN matrix, `none` (NaN) outside the shape. -/
def iget (m : OMat) (y x : ℕ) : Option ℚ := (m.getD y []).getD x none

/-- Read of a cost volume laid out as a list of (row, col) slices indexed by
the disparity index `d`. -/
def vget (cv : List OMat) (d y x : ℕ) : Option ℚ := iget (cv.getD d []) y x

/-- Cross tensor read, all-zero arms outside the allocated shape. -/
def cget (c : Cross) (y x : ℕ) : Arms := (c.getD y []).getD x ⟨0, 0, 0, 0⟩

/-- Row read `row[i]` for a possibly negative (numpy wrap-around) index. -/
def sget (row : List ℚ) (i : ℤ) : ℚ :=
  if 0 ≤ i then row.getD i.toNat 0 else row.getD (row.length - (-i).toNat) 0

/-- Column read `m[i, x]` for a possibly negative (numpy wrap-around) row
index. -/
def sgetRow (m : Mat) (i : ℤ) (x : ℕ) : ℚ :=
  if 0 ≤ i then mget m i.toNat x else mget m (m.length - (-i).toNat) x

/-- Python slice bound: clamp index `i` into `[0, n]` with negative values
counted from the end. -/
def pySliceIdx (n : ℕ) (i : ℤ) : ℕ :=
  if i < 0 then ((n : ℤ) + i).toNat else min i.toNat n

/-- `np.sum(m[lo:hi, x])` with Python slice semantics. -/
def sliceSum (m : Mat) (lo hi : ℤ) (x : ℕ) : ℚ :=
  let l := pySliceIdx m.length lo
  let u := pySliceIdx m.length hi
  (((List.range (u - l)).map fun j => mget m (l + j) x)).sum

/-- Sum of `t` consecutive rows of column `x`, starting at row `a`
(the form the specification uses to describe the step-4 count update). -/
def sumRows (m : Mat) (a t x : ℕ) : ℚ :=
  ((List.range t).map fun j => mget m (a + j) x).sum

/-- `cbca_step_1` (cbca.py lines 260-284): horizontal integral image of one
cost-volume slice.  The output has one extra column; cell `(y, x)` is written
as `step1[y, x-1] + cv[y, x]` (NaN costs contribute no increment), where the
read at `x - 1 = -1` wraps around to the last, never-written column that
stays 0. -/
def cbca_step_1 (cv : OMat) : Mat :=
  let ny := cv.length
  let nx := (cv.headD []).length
  (List.range ny).foldl
    (fun acc (y : ℕ) =>
      (List.range nx).foldl
        (fun acc2 (x : ℕ) =>
          let prev := sget (acc2.getD y []) ((x : ℤ) - 1)
          match iget cv y x with
          | some v => mset acc2 y x (prev + v)
          | none => mset acc2 y x prev)
        acc)
    (List.replicate ny (List.replicate (nx + 1) 0))

/-- Body of the double loop of `cbca_step_2` (cbca.py lines 316-321): for the
column pair `p = (range_col[x], range_col_right[x])` combine the horizontal
arms of both images, write the horizontal aggregate
`step1[y, col + right] - step1[y, col - left - 1]` into `step2` and add
`right + left` to `sum_step2[y, col]` (which starts at 0). -/
def step2_body (step1 : Mat) (cross_left cross_right : Cross) (y : ℕ)
    (acc : Mat × Mat) (p : ℕ × ℕ) : Mat × Mat :=
  let right := min (cget cross_left y p.1).right (cget cross_right y p.2).right
  let left := min (cget cross_left y p.1).left (cget cross_right y p.2).left
  let v := sget (step1.getD y []) ((p.1 : ℤ) + right) -
    sget (step1.getD y []) ((p.1 : ℤ) - left - 1)
  (mset acc.1 y p.1 v, mset acc.2 y p.1 (mget acc.2 y p.1 + ((right + left : ℤ) : ℚ)))

/-- Inner loop of `cbca_step_2` over the valid column pairs, for one row. -/
def step2_row (step1 : Mat) (cross_left cross_right : Cross) (y : ℕ)
    (ps : List (ℕ × ℕ)) (acc : Mat × Mat) : Mat × Mat :=
  ps.foldl (step2_body step1 cross_left cross_right y) acc

/-- `cbca_step_2` (cbca.py lines 287-323): horizontal matching cost and
horizontal support-pixel count for one disparity.  Both outputs are allocated
as zero matrices of shape (rows of step1, cols of step1 - 1); the loops write
only at the columns listed in `range_col`. -/
def cbca_step_2 (step1 : Mat) (cross_left cross_right : Cross)
    (range_col range_col_right : List ℕ) : Mat × Mat :=
  let ny := step1.length
  let nx1 := (step1.headD []).length
  let init : Mat := List.replicate ny (List.replicate (nx1 - 1) 0)
  (List.range ny).foldl
    (fun acc (y : ℕ) =>
      step2_row step1 cross_left cross_right y (range_col.zip range_col_right) acc)
    (init, init)

/-- `cbca_step_3` (cbca.py lines 326-347): vertical integral image.  One extra
row is allocated (it stays 0 and is reached through index `-1` wrap-around in
step 4); row 0 is copied from `step2`, each further row accumulates. -/
def cbca_step_3 (step2 : Mat) : Mat :=
  let ny := step2.length
  let nx := (step2.headD []).length
  let init : Mat :=
    (List.replicate (ny + 1) (List.replicate nx 0)).set 0
      ((List.range nx).map fun x => mget step2 0 x)
  (List.range' 1 (ny - 1)).foldl
    (fun acc (y : ℕ) =>
      (List.range nx).foldl
        (fun acc2 (x : ℕ) => mset acc2 y x (mget acc2 (y - 1) x + mget step2 y x))
        acc)
    init

/-- Body of the double loop of `cbca_step_4` (cbca.py lines 379-390): combine
the vertical arms, write
`step3[y + bot, col] - step3[y - top - 1, col]` into `step4`, and add to
`sum4[y, col]` (initialised to `sum2`) the vertical count `top + bot` plus,
when the arms are nonzero, the horizontal counts of the rows the vertical
aggregate spans (`np.sum(sum2[y-top:y])` and `np.sum(sum2[y+1:y+bot+1])`). -/
def step4_body (step3 sum2 : Mat) (cross_left cross_right : Cross) (y : ℕ)
    (acc : Mat × Mat) (p : ℕ × ℕ) : Mat × Mat :=
  let top := min (cget cross_left y p.1).top (cget cross_right y p.2).top
  let bot := min (cget cross_left y p.1).bot (cget cross_right y p.2).bot
  let v := sgetRow step3 ((y : ℤ) + bot) p.1 - sgetRow step3 ((y : ℤ) - top - 1) p.1
  let s := mget acc.2 y p.1 + ((top + bot : ℤ) : ℚ)
  let s := if top ≠ 0 then s + sliceSum sum2 ((y : ℤ) - top) (y : ℤ) p.1 else s
  let s := if bot ≠ 0 then s + sliceSum sum2 ((y : ℤ) + 1) ((y : ℤ) + bot + 1) p.1 else s
  (mset acc.1 y p.1 v, mset acc.2 y p.1 s)

/-- Inner loop of `cbca_step_4` over the valid column pairs, for one row. -/
def step4_row (step3 sum2 : Mat) (cross_left cross_right : Cross) (y : ℕ)
    (ps : List (ℕ × ℕ)) (acc : Mat × Mat) : Mat × Mat :=
  ps.foldl (step4_body step3 sum2 cross_left cross_right y) acc

/-- `cbca_step_4` (cbca.py lines 350-392): fully aggregated matching cost and
total support-pixel count for one disparity.  `step4` is a zero matrix with
one row less than `step3`; `sum4` starts as a copy of `sum2`. -/
def cbca_step_4 (step3 sum2 : Mat) (cross_left cross_right : Cross)
    (range_col range_col_right : List ℕ) : Mat × Mat :=
  let ny := step3.length - 1
  let nx := (step3.headD []).length
  let init : Mat := List.replicate ny (List.replicate nx 0)
  (List.range ny).foldl
    (fun acc (y : ℕ) =>
      step4_row step3 sum2 cross_left cross_right y (range_col.zip range_col_right) acc)
    (init, sum2)

/-- One walk of `cross_support` (cbca.py lines 425-428 and analogues): probe
`fuel` samples starting at `cur + step`, stopping (sample excluded) at the
first probe whose absolute difference from the anchor reaches the intensity
threshold; a non-finite probe (`none`, i.e. `np.inf` in the code) always
stops the walk since `|anchor - inf| >= intensity`.  Returns the number of
accepted samples together with the final value of the Python loop variable
(the index of the last probed sample, or `cur` when nothing was probed). -/
def armWalk (probe : ℤ → Option ℚ) (anchor t : ℚ) (step : ℤ) :
    ℕ → ℤ → ℕ × ℤ
  | 0, cur => (0, cur)
  | fuel + 1, cur =>
    let p := cur + step
    match probe p with
    | none => (0, p)
    | some v =>
      if t ≤ |anchor - v| then (0, p)
      else
        let r := armWalk probe anchor t step fuel p
        (r.1 + 1, r.2)

/-- Probe of row `y` of the image at a (possibly out-of-walk) column index;
the walks only ever probe indices inside the image. -/
def probeRow (img : OMat) (y : ℕ) (i : ℤ) : Option ℚ :=
  if 0 ≤ i then iget img y i.toNat else none

/-- Probe of column `x` of the image at a row index. -/
def probeCol (img : OMat) (x : ℕ) (i : ℤ) : Option ℚ :=
  if 0 ≤ i then iget img i.toNat x else none

/-- The four arm lengths of one pixel, as computed by the loop body of
`cross_support` (cbca.py lines 416-457).  A non-finite pixel keeps the
all-zero default.  Each walk probes the samples of the corresponding Python
`range`, whose element count is written out explicitly below; afterwards the
minimum-region rule lifts a zero arm to 1 when the direction has an in-bounds
neighbour and the last probed sample (the Python loop variable after the
loop) is finite: `max(len, 1 * (bound test) * np.isfinite(image[...]))`. -/
def cross_pixel (img : OMat) (ny nx : ℕ) (len_arms : ℤ) (intensity : ℚ)
    (y x : ℕ) : Arms :=
  match iget img y x with
  | none => ⟨0, 0, 0, 0⟩
  | some a =>
    let cntL : ℕ := ((x : ℤ) - 1 - max ((x : ℤ) - len_arms) (-1)).toNat
    let wl := armWalk (probeRow img y) a intensity (-1) cntL x
    let armL : ℤ :=
      max (wl.1 : ℤ) (if 1 ≤ x ∧ (probeRow img y wl.2).isSome then 1 else 0)
    let cntR : ℕ := (min ((x : ℤ) + len_arms) (nx : ℤ) - ((x : ℤ) + 1)).toNat
    let wr := armWalk (probeRow img y) a intensity 1 cntR x
    let armR : ℤ :=
      max (wr.1 : ℤ) (if (x : ℤ) < (nx : ℤ) - 1 ∧ (probeRow img y wr.2).isSome then 1 else 0)
    let cntU : ℕ := ((y : ℤ) - 1 - max ((y : ℤ) - len_arms) (-1)).toNat
    let wu := armWalk (probeCol img x) a intensity (-1) cntU y
    let armU : ℤ :=
      max (wu.1 : ℤ) (if 1 ≤ y ∧ (probeCol img x wu.2).isSome then 1 else 0)
    let cntB : ℕ := (min ((y : ℤ) + len_arms) (ny : ℤ) - ((y : ℤ) + 1)).toNat
    let wb := armWalk (probeCol img x) a intensity 1 cntB y
    let armB : ℤ :=
      max (wb.1 : ℤ) (if (y : ℤ) < (ny : ℤ) - 1 ∧ (probeCol img x wb.2).isSome then 1 else 0)
    ⟨armL, armR, armU, armB⟩

/-- `cross_support` (cbca.py lines 395-459): the cross-support tensor of an
image whose non-finite samples are `none`. -/
def cross_support (img : OMat) (len_arms : ℤ) (intensity : ℚ) : Cross :=
  let ny := img.length
  let nx := (img.headD []).length
  (List.range ny).map fun y => (List.range nx).map fun x =>
    cross_pixel img ny nx len_arms intensity y x

/-- The per-layer total support count `sum4` of `cost_volume_aggregation`
(cbca.py lines 137-151): steps 1 to 4 chained on one cost slice. -/
def layer_sum4 (slice : OMat) (cross_left cross_right : Cross)
    (range_col range_col_right : List ℕ) : Mat :=
  let step1 := cbca_step_1 slice
  let s2 := cbca_step_2 step1 cross_left cross_right range_col range_col_right
  (cbca_step_4 (cbca_step_3 s2.1) s2.2 cross_left cross_right range_col range_col_right).2

/-- The per-layer aggregated cost `step4` of `cost_volume_aggregation`. -/
def layer_step4 (slice : OMat) (cross_left cross_right : Cross)
    (range_col range_col_right : List ℕ) : Mat :=
  let step1 := cbca_step_1 slice
  let s2 := cbca_step_2 step1 cross_left cross_right range_col range_col_right
  (cbca_step_4 (cbca_step_3 s2.1) s2.2 cross_left cross_right range_col range_col_right).1

/-- One layer of the aggregation loop of `cost_volume_aggregation` (cbca.py
lines 118-158).  The output cell is NaN exactly where the input cost is NaN:
the orchestrator seeds the output with `agg += cv; agg *= 0`, which in IEEE
arithmetic leaves NaN at NaN input cells (NaN * 0 = NaN) and 0 elsewhere;
`agg += step4` and `agg /= sum4 + 1` keep NaN cells NaN, and turn a finite
cell into `step4 / (sum4 + 1)`. -/
def aggregate_layer (slice : OMat) (cross_left cross_right : Cross)
    (range_col range_col_right : List ℕ) : OMat :=
  let ny := slice.length
  let nx := (slice.headD []).length
  let s4 := layer_step4 slice cross_left cross_right range_col range_col_right
  let sum4 := layer_sum4 slice cross_left cross_right range_col range_col_right
  (List.range ny).map fun y => (List.range nx).map fun x =>
    (iget slice y x).map fun _ => mget s4 y x / (mget sum4 y x + 1)

/-- The valid-column set of a disparity layer (cbca.py lines 139-140): the
columns whose disparity-shifted counterpart lies inside the right cross
tensor's column bounds. -/
def valid_range_col (nx : ℕ) (d : ℤ) (rnx : ℕ) : List ℕ :=
  (List.range nx).filter fun c =>
    decide (0 ≤ (c : ℤ) + d) && decide ((c : ℤ) + d < (rnx : ℤ))

/-- `CrossBasedCostAggregation.cost_volume_aggregation` (cbca.py lines
87-160), for integer disparities (subpixel factor 1, where
`int((d % 1) * subpixel) = 0` always selects the single right cross-support
tensor and `astype(int)` is the identity on the shifted columns).  The cost
volume is a list of (row, col) slices, one per disparity of `disps`. -/
def cost_volume_aggregation (cv : List OMat) (disps : List ℤ)
    (cross_left cross_right : Cross) : List OMat :=
  (cv.zip disps).map fun sd =>
    let nx := (sd.1.headD []).length
    let rnx := (cross_right.headD []).length
    let rc := valid_range_col nx sd.2 rnx
    let rcr := rc.map fun c => ((c : ℤ) + sd.2).toNat
    aggregate_layer sd.1 cross_left cross_right rc rcr

/-- The configuration fed to `check_conf` after the missing-key defaulting
(cbca.py lines 66-69): the method tag and the two optional numeric options. -/
structure AggCfg where
  aggregation_method : String
  cbca_intensity : Option ℚ
  cbca_distance : Option ℤ

/-- The validator of the `aggregation_method` field (cbca.py line 72):
`lambda x: 'cbca'` ignores its argument and returns the constant string
`'cbca'`. -/
def method_lambda (_x : String) : String := "cbca"

/-- json_checker accepts a callable validator when its result is truthy; a
string is truthy in Python exactly when it is nonempty. -/
def pyTruthy (s : String) : Bool := !(s == "")

/-- `CrossBasedCostAggregation.check_conf` (cbca.py lines 56-79): fill in the
defaults (`cbca_intensity = 30.0`, `cbca_distance = 5`) and validate the
schema `{aggregation_method: And(str, lambda x: 'cbca'), cbca_intensity:
And(float, λx. x > 0), cbca_distance: And(int, λx. x > 0)}`.  The type checks
always hold in this typed model; the method check is the truthiness of what
`method_lambda` returns.  `true` means `Checker.validate` accepts the
configuration, `false` that it raises a configuration error. -/
def check_conf (cfg : AggCfg) : Bool :=
  let intensity := cfg.cbca_intensity.getD 30
  let distance := cfg.cbca_distance.getD 5
  pyTruthy (method_lambda cfg.aggregation_method) &&
    decide (0 < intensity) && decide (0 < distance)

/-- All arm lengths of a cross tensor are nonnegative (true of every tensor
`cross_support` produces; stated over the stored cells so that concrete
instances are decidable). -/
def CrossNonneg (c : Cross) : Prop :=
  ∀ row ∈ c, ∀ ar ∈ row, 0 ≤ ar.left ∧ 0 ≤ ar.right ∧ 0 ≤ ar.top ∧ 0 ≤ ar.bot

/-- Every stored sample of the image equals `some c`. -/
def AllEqIm (img : OMat) (c : ℚ) : Prop :=
  ∀ row ∈ img, ∀ v ∈ row, v = some c

/-- The image is rectangular: every row has the width of the first row. -/
def RectIm (img : OMat) : Prop :=
  ∀ row ∈ img, row.length = (img.headD []).length

/-- Two matrices have the same shape (same row count and row widths). -/
def ShapeEq (a b : Mat) : Prop :=
  a.length = b.length ∧ ∀ i, (a.getD i []).length = (b.getD i []).length

/-- Every cell of the matrix (defaults included) is nonnegative. -/
def MatNonneg (m : Mat) : Prop := ∀ y x, 0 ≤ mget m y x

theorem getD_set_ne {α : Type} {l : List α} {i j : ℕ} (h : i ≠ j) (a d : α) :
    (l.set i a).getD j d = l.getD j d := by
  simp [List.getD_eq_getElem?_getD, List.getElem?_set_ne h]

theorem getD_set_self {α : Type} {l : List α} {i : ℕ} (h : i < l.length) (a d : α) :
    (l.set i a).getD i d = a := by
  simp [List.getD_eq_getElem?_getD, List.getElem?_set_self h]

theorem getD_replicate {α : Type} {n i : ℕ} (a d : α) :
    (List.replicate n a).getD i d = if i < n then a else d := by
  simp [List.getD_eq_getElem?_getD, List.getElem?_replicate]
  split <;> rfl

theorem mget_mset_ne_row {m : Mat} {y y' : ℕ} (h : y ≠ y') (x x' : ℕ) (v : ℚ) :
    mget (mset m y x v) y' x' = mget m y' x' := by
  unfold mget mset
  rw [getD_set_ne h]

theorem mget_mset_ne_col {m : Mat} {x x' : ℕ} (h : x ≠ x') (y y' : ℕ) (v : ℚ) :
    mget (mset m y x v) y' x' = mget m y' x' := by
  by_cases hy : y = y'
  · subst hy
    unfold mget mset
    by_cases hl : y < m.length
    · rw [getD_set_self hl, getD_set_ne h]
    · rw [List.set_eq_of_length_le (Nat.le_of_not_lt hl)]
  · exact mget_mset_ne_row hy x x' v

theorem mget_mset_self {m : Mat} {y x : ℕ} (hy : y < m.length)
    (hx : x < (m.getD y []).length) (v : ℚ) :
    mget (mset m y x v) y x = v := by
  unfold mget mset
  rw [getD_set_self hy, getD_set_self hx]

theorem mget_mset_cases (m : Mat) (y x y' x' : ℕ) (v : ℚ) :
    mget (mset m y x v) y' x' = v ∨ mget (mset m y x v) y' x' = mget m y' x' := by
  by_cases hy : y = y'
  · subst hy
    by_cases hx : x = x'
    · subst hx
      by_cases hl : y < m.length
      · by_cases hr : x < (m.getD y []).length
        · exact Or.inl (mget_mset_self hl hr v)
        · refine Or.inr ?_
          unfold mget mset
          rw [getD_set_self hl, List.set_eq_of_length_le (Nat.le_of_not_lt hr)]
      · refine Or.inr ?_
        unfold mget mset
        rw [List.set_eq_of_length_le (Nat.le_of_not_lt hl)]
    · exact Or.inr (mget_mset_ne_col hx y y v)
  · exact Or.inr (mget_mset_ne_row hy x x' v)

theorem mset_shape (m : Mat) (y x : ℕ) (v : ℚ) : ShapeEq (mset m y x v) m := by
  constructor
  · simp [mset]
  · intro i
    by_cases hy : y = i
    · subst hy
      by_cases hl : y < m.length
      · unfold mset
        rw [getD_set_self hl, List.length_set]
      · unfold mset
        rw [List.set_eq_of_length_le (Nat.le_of_not_lt hl)]
    · unfold mset
      rw [getD_set_ne hy]

theorem shapeEq_refl (m : Mat) : ShapeEq m m := ⟨rfl, fun _ => rfl⟩

theorem shapeEq_trans {a b c : Mat} (h1 : ShapeEq a b) (h2 : ShapeEq b c) :
    ShapeEq a c := ⟨h1.1.trans h2.1, fun i => (h1.2 i).trans (h2.2 i)⟩

theorem mget_replicate_zero (a b y x : ℕ) :
    mget (List.replicate a (List.replicate b (0 : ℚ))) y x = 0 := by
  unfold mget
  rw [getD_replicate]
  split
  · rw [getD_replicate]; split <;> rfl
  · rfl

theorem rangeMap_getD {α : Type} (f : ℕ → α) {n i : ℕ} (h : i < n) (d : α) :
    (((List.range n).map f).getD i d) = f i := by
  simp [List.getD_eq_getElem?_getD, List.getElem?_map, List.getElem?_range h]

theorem zipMap_getD {α β γ : Type} (f : α × β → γ) {l1 : List α} {l2 : List β}
    {i : ℕ} (h1 : i < l1.length) (h2 : i < l2.length) (d : γ) (d1 : α) (d2 : β) :
    ((l1.zip l2).map f).getD i d = f (l1.getD i d1, l2.getD i d2) := by
  have hz : i < (l1.zip l2).length := by
    rw [List.length_zip]; exact lt_min h1 h2
  rw [List.getD_eq_getElem?_getD, List.getElem?_map]
  rw [List.getElem?_eq_getElem hz]
  have : (l1.zip l2)[i] = (l1[i], l2[i]) := List.getElem_zip
  rw [this]
  rw [List.getD_eq_getElem?_getD, List.getElem?_eq_getElem h1]
  rw [List.getD_eq_getElem?_getD, List.getElem?_eq_getElem h2]
  rfl

theorem nodup_zip_fst {α β : Type} {l1 : List α} (l2 : List β) (h : l1.Nodup) :
    ((l1.zip l2).map Prod.fst).Nodup := by
  induction l1 generalizing l2 with
  | nil => simp
  | cons a l1 ih =>
    cases l2 with
    | nil => simp
    | cons b l2 =>
      rw [List.zip_cons_cons, List.map_cons, List.nodup_cons]
      refine ⟨fun hmem => ?_, ih l2 (List.Nodup.of_cons h)⟩
      obtain ⟨p, hp, hfst⟩ := List.mem_map.1 hmem
      have : p.1 ∈ l1 := (List.of_mem_zip hp).1
      rw [hfst] at this
      exact (List.nodup_cons.1 h).1 this

theorem step2_row_cons (s : Mat) (cl cr : Cross) (y : ℕ) (p : ℕ × ℕ)
    (ps : List (ℕ × ℕ)) (acc : Mat × Mat) :
    step2_row s cl cr y (p :: ps) acc =
      step2_row s cl cr y ps (step2_body s cl cr y acc p) := rfl

theorem step2_row_append (s : Mat) (cl cr : Cross) (y : ℕ)
    (l1 l2 : List (ℕ × ℕ)) (acc : Mat × Mat) :
    step2_row s cl cr y (l1 ++ l2) acc =
      step2_row s cl cr y l2 (step2_row s cl cr y l1 acc) := by
  simp [step2_row, List.foldl_append]

theorem step2_row_avoid (s : Mat) (cl cr : Cross) (y : ℕ) {ps : List (ℕ × ℕ)}
    {c : ℕ} (h : ∀ p ∈ ps, p.1 ≠ c) (acc : Mat × Mat) (y0 : ℕ) :
    mget (step2_row s cl cr y ps acc).1 y0 c = mget acc.1 y0 c ∧
    mget (step2_row s cl cr y ps acc).2 y0 c = mget acc.2 y0 c := by
  induction ps generalizing acc with
  | nil => exact ⟨rfl, rfl⟩
  | cons p ps ih =>
    have hp : p.1 ≠ c := h p (List.mem_cons_self p ps)
    have hrest : ∀ q ∈ ps, q.1 ≠ c := fun q hq => h q (List.mem_cons_of_mem p hq)
    rw [step2_row_cons]
    have := ih hrest (step2_body s cl cr y acc p)
    refine ⟨this.1.trans ?_, this.2.trans ?_⟩
    · exact mget_mset_ne_col hp y y0 _
    · exact mget_mset_ne_col hp y y0 _

theorem step2_row_other (s : Mat) (cl cr : Cross) {y y0 : ℕ} (h : y ≠ y0)
    (ps : List (ℕ × ℕ)) (acc : Mat × Mat) (x' : ℕ) :
    mget (step2_row s cl cr y ps acc).1 y0 x' = mget acc.1 y0 x' ∧
    mget (step2_row s cl cr y ps acc).2 y0 x' = mget acc.2 y0 x' := by
  induction ps generalizing acc with
  | nil => exact ⟨rfl, rfl⟩
  | cons p ps ih =>
    rw [step2_row_cons]
    have := ih (step2_body s cl cr y acc p)
    refine ⟨this.1.trans ?_, this.2.trans ?_⟩
    · exact mget_mset_ne_row h _ x' _
    · exact mget_mset_ne_row h _ x' _

theorem step2_row_shape (s : Mat) (cl cr : Cross) (y : ℕ) (ps : List (ℕ × ℕ))
    (acc : Mat × Mat) :
    ShapeEq (step2_row s cl cr y ps acc).1 acc.1 ∧
    ShapeEq (step2_row s cl cr y ps acc).2 acc.2 := by
  induction ps generalizing acc with
  | nil => exact ⟨shapeEq_refl _, shapeEq_refl _⟩
  | cons p ps ih =>
    rw [step2_row_cons]
    have := ih (step2_body s cl cr y acc p)
    exact ⟨shapeEq_trans this.1 (mset_shape _ _ _ _),
      shapeEq_trans this.2 (mset_shape _ _ _ _)⟩

theorem step2_outer_avoid (s : Mat) (cl cr : Cross) {ps : List (ℕ × ℕ)} {c : ℕ}
    (h : ∀ p ∈ ps, p.1 ≠ c) (ys : List ℕ) (acc : Mat × Mat) (y0 : ℕ) :
    mget ((ys.foldl (fun a (y : ℕ) => step2_row s cl cr y ps a) acc)).1 y0 c =
      mget acc.1 y0 c ∧
    mget ((ys.foldl (fun a (y : ℕ) => step2_row s cl cr y ps a) acc)).2 y0 c =
      mget acc.2 y0 c := by
  induction ys generalizing acc with
  | nil => exact ⟨rfl, rfl⟩
  | cons y ys ih =>
    rw [List.foldl_cons]
    have := ih (step2_row s cl cr y ps acc)
    have hstep := step2_row_avoid s cl cr y h acc y0
    exact ⟨this.1.trans hstep.1, this.2.trans hstep.2⟩

theorem step2_outer_other (s : Mat) (cl cr : Cross) (ps : List (ℕ × ℕ))
    {ys : List ℕ} {y0 : ℕ} (h : y0 ∉ ys) (acc : Mat × Mat) (x' : ℕ) :
    mget ((ys.foldl (fun a (y : ℕ) => step2_row s cl cr y ps a) acc)).1 y0 x' =
      mget acc.1 y0 x' ∧
    mget ((ys.foldl (fun a (y : ℕ) => step2_row s cl cr y ps a) acc)).2 y0 x' =
      mget acc.2 y0 x' := by
  induction ys generalizing acc with
  | nil => exact ⟨rfl, rfl⟩
  | cons y ys ih =>
    rw [List.foldl_cons]
    have hy : y ≠ y0 := fun he => h (he ▸ List.mem_cons_self y ys)
    have := ih (fun he => h (List.mem_cons_of_mem y he)) (step2_row s cl cr y ps acc)
    have hstep := step2_row_other s cl cr hy ps acc x'
    exact ⟨this.1.trans hstep.1, this.2.trans hstep.2⟩

theorem step2_outer_shape (s : Mat) (cl cr : Cross) (ps : List (ℕ × ℕ))
    (ys : List ℕ) (acc : Mat × Mat) :
    ShapeEq ((ys.foldl (fun a (y : ℕ) => step2_row s cl cr y ps a) acc)).1 acc.1 ∧
    ShapeEq ((ys.foldl (fun a (y : ℕ) => step2_row s cl cr y ps a) acc)).2 acc.2 := by
  induction ys generalizing acc with
  | nil => exact ⟨shapeEq_refl _, shapeEq_refl _⟩
  | cons y ys ih =>
    rw [List.foldl_cons]
    have := ih (step2_row s cl cr y ps acc)
    have hstep := step2_row_shape s cl cr y ps acc
    exact ⟨shapeEq_trans this.1 hstep.1, shapeEq_trans this.2 hstep.2⟩

theorem range_split {y n : ℕ} (h : y < n) :
    List.range n = List.range' 0 y ++ y :: List.range' (y + 1) (n - y - 1) := by
  rw [List.range_eq_range']
  have h1 : n = n - y + y := by omega
  rw [h1, ← List.range'_append_1 0 y (n - y)]
  have h2 : n - y = (n - y - 1) + 1 := by omega
  rw [h2, List.range'_succ]
  simp

theorem not_mem_range'_lo {y s n : ℕ} (h : y < s) : y ∉ List.range' s n := by
  intro hmem
  rw [List.mem_range'] at hmem
  omega

theorem not_mem_range'_hi {s n : ℕ} : ∀ {y : ℕ}, s + n ≤ y → y ∉ List.range' s n := by
  intro y h hmem
  rw [List.mem_range'] at hmem
  omega

theorem split_firsts {l1 l2 : List (ℕ × ℕ)} {c r0 : ℕ}
    (hnd : ((l1 ++ (c, r0) :: l2).map Prod.fst).Nodup) :
    (∀ p ∈ l1, p.1 ≠ c) ∧ (∀ p ∈ l2, p.1 ≠ c) := by
  rw [List.map_append, List.map_cons, List.nodup_append] at hnd
  obtain ⟨h1nd, h2nd, hdisj⟩ := hnd
  constructor
  · intro p hp he
    exact hdisj (List.mem_map.2 ⟨p, hp, he⟩) (List.mem_cons_self _ _)
  · intro p hp he
    exact (List.nodup_cons.1 h2nd).1 (List.mem_map.2 ⟨p, hp, he⟩)

theorem step2_body_pair_fst (s : Mat) (cl cr : Cross) (y : ℕ) (acc : Mat × Mat)
    (c r0 : ℕ) :
    (step2_body s cl cr y acc (c, r0)).1 = mset acc.1 y c
      (sget (s.getD y []) ((c : ℤ) + min (cget cl y c).right (cget cr y r0).right) -
        sget (s.getD y []) ((c : ℤ) - min (cget cl y c).left (cget cr y r0).left - 1)) := rfl

theorem step2_body_pair_snd (s : Mat) (cl cr : Cross) (y : ℕ) (acc : Mat × Mat)
    (c r0 : ℕ) :
    (step2_body s cl cr y acc (c, r0)).2 = mset acc.2 y c
      (mget acc.2 y c +
        ((min (cget cl y c).right (cget cr y r0).right +
          min (cget cl y c).left (cget cr y r0).left : ℤ) : ℚ)) := rfl

theorem step2_fold_calc (s : Mat) (cl cr : Cross) {A B : List ℕ} {y : ℕ}
    (hA : y ∉ A) (hB : y ∉ B) {l1 l2 : List (ℕ × ℕ)} {c : ℕ}
    (h1 : ∀ p ∈ l1, p.1 ≠ c) (h2 : ∀ p ∈ l2, p.1 ≠ c) (r0 : ℕ)
    (init : Mat × Mat)
    (hy1 : y < init.1.length) (hy2 : y < init.2.length)
    (hx1 : c < (init.1.getD y []).length) (hx2 : c < (init.2.getD y []).length) :
    mget (((A ++ y :: B).foldl
        (fun a (yy : ℕ) => step2_row s cl cr yy (l1 ++ (c, r0) :: l2) a) init)).1 y c =
      sget (s.getD y []) ((c : ℤ) + min (cget cl y c).right (cget cr y r0).right) -
        sget (s.getD y []) ((c : ℤ) - min (cget cl y c).left (cget cr y r0).left - 1) ∧
    mget (((A ++ y :: B).foldl
        (fun a (yy : ℕ) => step2_row s cl cr yy (l1 ++ (c, r0) :: l2) a) init)).2 y c =
      mget init.2 y c +
        ((min (cget cl y c).right (cget cr y r0).right +
          min (cget cl y c).left (cget cr y r0).left : ℤ) : ℚ) := by
  rw [List.foldl_append, List.foldl_cons]
  have hsh := step2_outer_shape s cl cr (l1 ++ (c, r0) :: l2) A init
  have hval := @step2_outer_other s cl cr (l1 ++ (c, r0) :: l2) A y hA init c
  generalize hg : A.foldl
    (fun a (yy : ℕ) => step2_row s cl cr yy (l1 ++ (c, r0) :: l2) a) init = acc0
    at hsh hval ⊢
  have hout := @step2_outer_other s cl cr (l1 ++ (c, r0) :: l2) B y hB
    (step2_row s cl cr y (l1 ++ (c, r0) :: l2) acc0) c
  refine ⟨hout.1.trans ?_, hout.2.trans ?_⟩ <;>
    rw [step2_row_append, step2_row_cons]
  · have hsh1 := step2_row_shape s cl cr y l1 acc0
    have hlen : y < (step2_row s cl cr y l1 acc0).1.length := by
      rw [hsh1.1.1, hsh.1.1]; exact hy1
    have hrow : c < ((step2_row s cl cr y l1 acc0).1.getD y []).length := by
      rw [hsh1.1.2 y, hsh.1.2 y]; exact hx1
    rw [(step2_row_avoid s cl cr y h2
        (step2_body s cl cr y (step2_row s cl cr y l1 acc0) (c, r0)) y).1,
      step2_body_pair_fst, mget_mset_self hlen hrow]
  · have hsh1 := step2_row_shape s cl cr y l1 acc0
    have hlen : y < (step2_row s cl cr y l1 acc0).2.length := by
      rw [hsh1.2.1, hsh.2.1]; exact hy2
    have hrow : c < ((step2_row s cl cr y l1 acc0).2.getD y []).length := by
      rw [hsh1.2.2 y, hsh.2.2 y]; exact hx2
    rw [(step2_row_avoid s cl cr y h2
        (step2_body s cl cr y (step2_row s cl cr y l1 acc0) (c, r0)) y).2,
      step2_body_pair_snd, mget_mset_self hlen hrow,
      (step2_row_avoid s cl cr y h1 acc0 y).2, hval.2]

/-- **C7.** In `cbca_step_2`, for every valid column pair `(c, r0)` of the
current disparity (an entry of `zip range_col range_col_right`, the valid
columns being pairwise distinct as the code produces them), the horizontal
aggregate written at column `c` of row `y` equals
`step1[y, c + right] - step1[y, c - left - 1]` with
`right = min(cross_left.right, cross_right.right)` and
`left = min(cross_left.left, cross_right.left)`, and the horizontal support
count written there equals `left + right`. -/
theorem C7_step2_formula (s : Mat) (cl cr : Cross) {rc rcr : List ℕ}
    {c r0 : ℕ} (hmem : (c, r0) ∈ rc.zip rcr) (hnd : rc.Nodup) {y : ℕ}
    (hy : y < s.length) (hc : c < (s.headD []).length - 1) :
    mget (cbca_step_2 s cl cr rc rcr).1 y c =
      sget (s.getD y []) ((c : ℤ) + min (cget cl y c).right (cget cr y r0).right) -
        sget (s.getD y []) ((c : ℤ) - min (cget cl y c).left (cget cr y r0).left - 1) ∧
    mget (cbca_step_2 s cl cr rc rcr).2 y c =
      ((min (cget cl y c).left (cget cr y r0).left +
        min (cget cl y c).right (cget cr y r0).right : ℤ) : ℚ) := by
  obtain ⟨l1, l2, hsplit⟩ := List.append_of_mem hmem
  have hfstnd : ((rc.zip rcr).map Prod.fst).Nodup := nodup_zip_fst rcr hnd
  rw [hsplit] at hfstnd
  obtain ⟨h1, h2⟩ := split_firsts hfstnd
  have hdef : cbca_step_2 s cl cr rc rcr =
      (List.range s.length).foldl
        (fun a (y : ℕ) => step2_row s cl cr y (rc.zip rcr) a)
        (List.replicate s.length (List.replicate ((s.headD []).length - 1) 0),
         List.replicate s.length (List.replicate ((s.headD []).length - 1) 0)) := rfl
  rw [hdef, range_split hy, hsplit]
  have hcalc := step2_fold_calc s cl cr
    (@not_mem_range'_hi 0 y y (by omega))
    (@not_mem_range'_lo y (y + 1) (s.length - y - 1) (Nat.lt_succ_self y))
    h1 h2 r0
    (List.replicate s.length (List.replicate ((s.headD []).length - 1) 0),
     List.replicate s.length (List.replicate ((s.headD []).length - 1) 0))
    (by rw [List.length_replicate]; exact hy)
    (by rw [List.length_replicate]; exact hy)
    (by show c < ((List.replicate s.length
          (List.replicate ((s.headD []).length - 1) (0 : ℚ))).getD y []).length
        rw [getD_replicate, if_pos hy, List.length_replicate]; exact hc)
    (by show c < ((List.replicate s.length
          (List.replicate ((s.headD []).length - 1) (0 : ℚ))).getD y []).length
        rw [getD_replicate, if_pos hy, List.length_replicate]; exact hc)
  refine ⟨hcalc.1, hcalc.2.trans ?_⟩
  show mget (List.replicate s.length
      (List.replicate ((s.headD []).length - 1) (0 : ℚ))) y c + _ = _
  rw [mget_replicate_zero, zero_add]
  push_cast
  ring

theorem step4_row_cons (s3 s2 : Mat) (cl cr : Cross) (y : ℕ) (p : ℕ × ℕ)
    (ps : List (ℕ × ℕ)) (acc : Mat × Mat) :
    step4_row s3 s2 cl cr y (p :: ps) acc =
      step4_row s3 s2 cl cr y ps (step4_body s3 s2 cl cr y acc p) := rfl

theorem step4_row_append (s3 s2 : Mat) (cl cr : Cross) (y : ℕ)
    (l1 l2 : List (ℕ × ℕ)) (acc : Mat × Mat) :
    step4_row s3 s2 cl cr y (l1 ++ l2) acc =
      step4_row s3 s2 cl cr y l2 (step4_row s3 s2 cl cr y l1 acc) := by
  simp [step4_row, List.foldl_append]

theorem step4_row_avoid (s3 s2 : Mat) (cl cr : Cross) (y : ℕ) {ps : List (ℕ × ℕ)}
    {c : ℕ} (h : ∀ p ∈ ps, p.1 ≠ c) (acc : Mat × Mat) (y0 : ℕ) :
    mget (step4_row s3 s2 cl cr y ps acc).1 y0 c = mget acc.1 y0 c ∧
    mget (step4_row s3 s2 cl cr y ps acc).2 y0 c = mget acc.2 y0 c := by
  induction ps generalizing acc with
  | nil => exact ⟨rfl, rfl⟩
  | cons p ps ih =>
    have hp : p.1 ≠ c := h p (List.mem_cons_self p ps)
    have hrest : ∀ q ∈ ps, q.1 ≠ c := fun q hq => h q (List.mem_cons_of_mem p hq)
    rw [step4_row_cons]
    have := ih hrest (step4_body s3 s2 cl cr y acc p)
    refine ⟨this.1.trans ?_, this.2.trans ?_⟩
    · exact mget_mset_ne_col hp y y0 _
    · exact mget_mset_ne_col hp y y0 _

theorem step4_row_other (s3 s2 : Mat) (cl cr : Cross) {y y0 : ℕ} (h : y ≠ y0)
    (ps : List (ℕ × ℕ)) (acc : Mat × Mat) (x' : ℕ) :
    mget (step4_row s3 s2 cl cr y ps acc).1 y0 x' = mget acc.1 y0 x' ∧
    mget (step4_row s3 s2 cl cr y ps acc).2 y0 x' = mget acc.2 y0 x' := by
  induction ps generalizing acc with
  | nil => exact ⟨rfl, rfl⟩
  | cons p ps ih =>
    rw [step4_row_cons]
    have := ih (step4_body s3 s2 cl cr y acc p)
    refine ⟨this.1.trans ?_, this.2.trans ?_⟩
    · exact mget_mset_ne_row h _ x' _
    · exact mget_mset_ne_row h _ x' _

theorem step4_row_shape (s3 s2 : Mat) (cl cr : Cross) (y : ℕ) (ps : List (ℕ × ℕ))
    (acc : Mat × Mat) :
    ShapeEq (step4_row s3 s2 cl cr y ps acc).1 acc.1 ∧
    ShapeEq (step4_row s3 s2 cl cr y ps acc).2 acc.2 := by
  induction ps generalizing acc with
  | nil => exact ⟨shapeEq_refl _, shapeEq_refl _⟩
  | cons p ps ih =>
    rw [step4_row_cons]
    have := ih (step4_body s3 s2 cl cr y acc p)
    exact ⟨shapeEq_trans this.1 (mset_shape _ _ _ _),
      shapeEq_trans this.2 (mset_shape _ _ _ _)⟩

theorem step4_outer_avoid (s3 s2 : Mat) (cl cr : Cross) {ps : List (ℕ × ℕ)} {c : ℕ}
    (h : ∀ p ∈ ps, p.1 ≠ c) (ys : List ℕ) (acc : Mat × Mat) (y0 : ℕ) :
    mget ((ys.foldl (fun a (y : ℕ) => step4_row s3 s2 cl cr y ps a) acc)).1 y0 c =
      mget acc.1 y0 c ∧
    mget ((ys.foldl (fun a (y : ℕ) => step4_row s3 s2 cl cr y ps a) acc)).2 y0 c =
      mget acc.2 y0 c := by
  induction ys generalizing acc with
  | nil => exact ⟨rfl, rfl⟩
  | cons y ys ih =>
    rw [List.foldl_cons]
    have := ih (step4_row s3 s2 cl cr y ps acc)
    have hstep := step4_row_avoid s3 s2 cl cr y h acc y0
    exact ⟨this.1.trans hstep.1, this.2.trans hstep.2⟩

theorem step4_outer_other (s3 s2 : Mat) (cl cr : Cross) (ps : List (ℕ × ℕ))
    {ys : List ℕ} {y0 : ℕ} (h : y0 ∉ ys) (acc : Mat × Mat) (x' : ℕ) :
    mget ((ys.foldl (fun a (y : ℕ) => step4_row s3 s2 cl cr y ps a) acc)).1 y0 x' =
      mget acc.1 y0 x' ∧
    mget ((ys.foldl (fun a (y : ℕ) => step4_row s3 s2 cl cr y ps a) acc)).2 y0 x' =
      mget acc.2 y0 x' := by
  induction ys generalizing acc with
  | nil => exact ⟨rfl, rfl⟩
  | cons y ys ih =>
    rw [List.foldl_cons]
    have hy : y ≠ y0 := fun he => h (he ▸ List.mem_cons_self y ys)
    have := ih (fun he => h (List.mem_cons_of_mem y he)) (step4_row s3 s2 cl cr y ps acc)
    have hstep := step4_row_other s3 s2 cl cr hy ps acc x'
    exact ⟨this.1.trans hstep.1, this.2.trans hstep.2⟩

theorem step4_outer_shape (s3 s2 : Mat) (cl cr : Cross) (ps : List (ℕ × ℕ))
    (ys : List ℕ) (acc : Mat × Mat) :
    ShapeEq ((ys.foldl (fun a (y : ℕ) => step4_row s3 s2 cl cr y ps a) acc)).1 acc.1 ∧
    ShapeEq ((ys.foldl (fun a (y : ℕ) => step4_row s3 s2 cl cr y ps a) acc)).2 acc.2 := by
  induction ys generalizing acc with
  | nil => exact ⟨shapeEq_refl _, shapeEq_refl _⟩
  | cons y ys ih =>
    rw [List.foldl_cons]
    have := ih (step4_row s3 s2 cl cr y ps acc)
    have hstep := step4_row_shape s3 s2 cl cr y ps acc
    exact ⟨shapeEq_trans this.1 hstep.1, shapeEq_trans this.2 hstep.2⟩

theorem step4_body_pair_snd (s3 s2 : Mat) (cl cr : Cross) (y : ℕ) (acc : Mat × Mat)
    (c r0 : ℕ) :
    (step4_body s3 s2 cl cr y acc (c, r0)).2 = mset acc.2 y c
      (if min (cget cl y c).bot (cget cr y r0).bot ≠ 0 then
        (if min (cget cl y c).top (cget cr y r0).top ≠ 0 then
          (mget acc.2 y c +
            ((min (cget cl y c).top (cget cr y r0).top +
              min (cget cl y c).bot (cget cr y r0).bot : ℤ) : ℚ)) +
            sliceSum s2 ((y : ℤ) - min (cget cl y c).top (cget cr y r0).top) (y : ℤ) c
        else
          mget acc.2 y c +
            ((min (cget cl y c).top (cget cr y r0).top +
              min (cget cl y c).bot (cget cr y r0).bot : ℤ) : ℚ)) +
          sliceSum s2 ((y : ℤ) + 1)
            ((y : ℤ) + min (cget cl y c).bot (cget cr y r0).bot + 1) c
      else
        (if min (cget cl y c).top (cget cr y r0).top ≠ 0 then
          (mget acc.2 y c +
            ((min (cget cl y c).top (cget cr y r0).top +
              min (cget cl y c).bot (cget cr y r0).bot : ℤ) : ℚ)) +
            sliceSum s2 ((y : ℤ) - min (cget cl y c).top (cget cr y r0).top) (y : ℤ) c
        else
          mget acc.2 y c +
            ((min (cget cl y c).top (cget cr y r0).top +
              min (cget cl y c).bot (cget cr y r0).bot : ℤ) : ℚ))) := rfl

theorem step4_fold_calc (s3 s2 : Mat) (cl cr : Cross) {A B : List ℕ} {y : ℕ}
    (hA : y ∉ A) (hB : y ∉ B) {l1 l2 : List (ℕ × ℕ)} {c : ℕ}
    (h1 : ∀ p ∈ l1, p.1 ≠ c) (h2 : ∀ p ∈ l2, p.1 ≠ c) (r0 : ℕ)
    (init : Mat × Mat)
    (hy2 : y < init.2.length) (hx2 : c < (init.2.getD y []).length) :
    mget (((A ++ y :: B).foldl
        (fun a (yy : ℕ) => step4_row s3 s2 cl cr yy (l1 ++ (c, r0) :: l2) a) init)).2 y c =
      (if min (cget cl y c).bot (cget cr y r0).bot ≠ 0 then
        (if min (cget cl y c).top (cget cr y r0).top ≠ 0 then
          (mget init.2 y c +
            ((min (cget cl y c).top (cget cr y r0).top +
              min (cget cl y c).bot (cget cr y r0).bot : ℤ) : ℚ)) +
            sliceSum s2 ((y : ℤ) - min (cget cl y c).top (cget cr y r0).top) (y : ℤ) c
        else
          mget init.2 y c +
            ((min (cget cl y c).top (cget cr y r0).top +
              min (cget cl y c).bot (cget cr y r0).bot : ℤ) : ℚ)) +
          sliceSum s2 ((y : ℤ) + 1)
            ((y : ℤ) + min (cget cl y c).bot (cget cr y r0).bot + 1) c
      else
        (if min (cget cl y c).top (cget cr y r0).top ≠ 0 then
          (mget init.2 y c +
            ((min (cget cl y c).top (cget cr y r0).top +
              min (cget cl y c).bot (cget cr y r0).bot : ℤ) : ℚ)) +
            sliceSum s2 ((y : ℤ) - min (cget cl y c).top (cget cr y r0).top) (y : ℤ) c
        else
          mget init.2 y c +
            ((min (cget cl y c).top (cget cr y r0).top +
              min (cget cl y c).bot (cget cr y r0).bot : ℤ) : ℚ))) := by
  rw [List.foldl_append, List.foldl_cons]
  have hsh := step4_outer_shape s3 s2 cl cr (l1 ++ (c, r0) :: l2) A init
  have hval := @step4_outer_other s3 s2 cl cr (l1 ++ (c, r0) :: l2) A y hA init c
  generalize hg : A.foldl
    (fun a (yy : ℕ) => step4_row s3 s2 cl cr yy (l1 ++ (c, r0) :: l2) a) init = acc0
    at hsh hval ⊢
  have hout := @step4_outer_other s3 s2 cl cr (l1 ++ (c, r0) :: l2) B y hB
    (step4_row s3 s2 cl cr y (l1 ++ (c, r0) :: l2) acc0) c
  refine hout.2.trans ?_
  rw [step4_row_append, step4_row_cons]
  have hsh1 := step4_row_shape s3 s2 cl cr y l1 acc0
  have hlen : y < (step4_row s3 s2 cl cr y l1 acc0).2.length := by
    rw [hsh1.2.1, hsh.2.1]; exact hy2
  have hrow : c < ((step4_row s3 s2 cl cr y l1 acc0).2.getD y []).length := by
    rw [hsh1.2.2 y, hsh.2.2 y]; exact hx2
  rw [(step4_row_avoid s3 s2 cl cr y h2
      (step4_body s3 s2 cl cr y (step4_row s3 s2 cl cr y l1 acc0) (c, r0)) y).2,
    step4_body_pair_snd, mget_mset_self hlen hrow,
    (step4_row_avoid s3 s2 cl cr y h1 acc0 y).2, hval.2]

theorem sliceSum_eq_sumRows {m : Mat} {lo hi : ℤ} (h0 : 0 ≤ lo) (h1 : lo ≤ hi)
    (h2 : hi ≤ (m.length : ℤ)) (x : ℕ) :
    sliceSum m lo hi x = sumRows m lo.toNat (hi - lo).toNat x := by
  unfold sliceSum sumRows pySliceIdx
  have hl : (if lo < 0 then ((m.length : ℤ) + lo).toNat else min lo.toNat m.length) =
      lo.toNat := by
    rw [if_neg (by omega)]
    omega
  have hu : (if hi < 0 then ((m.length : ℤ) + hi).toNat else min hi.toNat m.length) =
      hi.toNat := by
    rw [if_neg (by omega)]
    omega
  rw [hl, hu]
  have hk : hi.toNat - lo.toNat = (hi - lo).toNat := by omega
  simp only [hk]

/-- **C6.** In `cbca_step_4`, for every pixel `(y, c)` of the valid-column
set (pair `(c, r0)` of `zip range_col range_col_right`, valid columns
pairwise distinct), with combined vertical arms
`top = min(cross_left.top, cross_right.top)` and
`bot = min(cross_left.bottom, cross_right.bottom)` (the in-range conditions
the code guarantees, `0 ≤ top ≤ y` and `y + bot < rows`, are hypotheses),
the total support count equals `sum2[y,c] + top + bot`, plus the sum of the
horizontal counts of rows `y-top .. y-1` when `top > 0`, plus the sum of the
horizontal counts of rows `y+1 .. y+bot` when `bot > 0`. -/
theorem C6_step4_count (s3 s2 : Mat) (cl cr : Cross) {rc rcr : List ℕ}
    {c r0 : ℕ} (hmem : (c, r0) ∈ rc.zip rcr) (hnd : rc.Nodup) {y : ℕ}
    (hy : y < s3.length - 1) (hy2 : y < s2.length) (hc2 : c < (s2.getD y []).length)
    (htop0 : 0 ≤ min (cget cl y c).top (cget cr y r0).top)
    (htop : min (cget cl y c).top (cget cr y r0).top ≤ (y : ℤ))
    (hbot0 : 0 ≤ min (cget cl y c).bot (cget cr y r0).bot)
    (hbot : (y : ℤ) + min (cget cl y c).bot (cget cr y r0).bot + 1 ≤ (s2.length : ℤ)) :
    mget (cbca_step_4 s3 s2 cl cr rc rcr).2 y c =
      mget s2 y c +
        ((min (cget cl y c).top (cget cr y r0).top +
          min (cget cl y c).bot (cget cr y r0).bot : ℤ) : ℚ) +
      (if min (cget cl y c).top (cget cr y r0).top ≠ 0 then
        sumRows s2 (y - (min (cget cl y c).top (cget cr y r0).top).toNat)
          ((min (cget cl y c).top (cget cr y r0).top).toNat) c
      else 0) +
      (if min (cget cl y c).bot (cget cr y r0).bot ≠ 0 then
        sumRows s2 (y + 1) ((min (cget cl y c).bot (cget cr y r0).bot).toNat) c
      else 0) := by
  obtain ⟨l1, l2, hsplit⟩ := List.append_of_mem hmem
  have hfstnd : ((rc.zip rcr).map Prod.fst).Nodup := nodup_zip_fst rcr hnd
  rw [hsplit] at hfstnd
  obtain ⟨h1, h2⟩ := split_firsts hfstnd
  have hdef : cbca_step_4 s3 s2 cl cr rc rcr =
      (List.range (s3.length - 1)).foldl
        (fun a (y : ℕ) => step4_row s3 s2 cl cr y (rc.zip rcr) a)
        (List.replicate (s3.length - 1) (List.replicate ((s3.headD []).length) 0),
         s2) := rfl
  rw [hdef, range_split hy, hsplit]
  have hcalc := step4_fold_calc s3 s2 cl cr
    (@not_mem_range'_hi 0 y y (by omega))
    (@not_mem_range'_lo y (y + 1) (s3.length - 1 - y - 1) (Nat.lt_succ_self y))
    h1 h2 r0
    (List.replicate (s3.length - 1) (List.replicate ((s3.headD []).length) 0), s2)
    hy2 hc2
  have hinit : mget ((List.replicate (s3.length - 1)
      (List.replicate ((s3.headD []).length) 0), s2) : Mat × Mat).2 y c =
      mget s2 y c := rfl
  rw [hinit] at hcalc
  refine hcalc.trans ?_
  have hslice1 : sliceSum s2 ((y : ℤ) - min (cget cl y c).top (cget cr y r0).top)
      (y : ℤ) c =
      sumRows s2 (y - (min (cget cl y c).top (cget cr y r0).top).toNat)
        ((min (cget cl y c).top (cget cr y r0).top).toNat) c := by
    have e1 : ((y : ℤ) - min (cget cl y c).top (cget cr y r0).top).toNat =
        y - (min (cget cl y c).top (cget cr y r0).top).toNat := by omega
    have e2 : ((y : ℤ) - ((y : ℤ) - min (cget cl y c).top (cget cr y r0).top)).toNat =
        (min (cget cl y c).top (cget cr y r0).top).toNat := by omega
    rw [sliceSum_eq_sumRows (by omega) (by omega) (by omega) c, e1, e2]
  have hslice2 : sliceSum s2 ((y : ℤ) + 1)
      ((y : ℤ) + min (cget cl y c).bot (cget cr y r0).bot + 1) c =
      sumRows s2 (y + 1) ((min (cget cl y c).bot (cget cr y r0).bot).toNat) c := by
    have e3 : ((y : ℤ) + 1).toNat = y + 1 := by omega
    have e4 : (((y : ℤ) + min (cget cl y c).bot (cget cr y r0).bot + 1) -
        ((y : ℤ) + 1)).toNat = (min (cget cl y c).bot (cget cr y r0).bot).toNat := by
      omega
    rw [sliceSum_eq_sumRows (by omega) (by omega) (by omega) c, e3, e4]
  by_cases hT : min (cget cl y c).top (cget cr y r0).top ≠ 0 <;>
    by_cases hB : min (cget cl y c).bot (cget cr y r0).bot ≠ 0
  · rw [if_pos hB, if_pos hT, if_pos hT, if_pos hB, hslice1, hslice2]
  · rw [if_neg hB, if_pos hT, if_pos hT, if_neg hB, hslice1, add_zero]
  · rw [if_pos hB, if_neg hT, if_neg hT, if_pos hB, hslice2, add_zero]
  · rw [if_neg hB, if_neg hT, if_neg hT, if_neg hB, add_zero, add_zero]

theorem getD_mem_or {α : Type} (l : List α) (i : ℕ) (d : α) :
    l.getD i d ∈ l ∨ l.getD i d = d := by
  by_cases h : i < l.length
  · left
    rw [List.getD_eq_getElem?_getD, List.getElem?_eq_getElem h]
    exact List.getElem_mem h
  · right
    rw [List.getD_eq_getElem?_getD, List.getElem?_eq_none (Nat.le_of_not_lt h)]
    rfl

theorem cget_nonneg {cs : Cross} (h : CrossNonneg cs) (y x : ℕ) :
    0 ≤ (cget cs y x).left ∧ 0 ≤ (cget cs y x).right ∧
    0 ≤ (cget cs y x).top ∧ 0 ≤ (cget cs y x).bot := by
  unfold cget
  rcases getD_mem_or cs y [] with hrow | hrow
  · rcases getD_mem_or (cs.getD y []) x ⟨0, 0, 0, 0⟩ with hc | hc
    · exact h _ hrow _ hc
    · rw [hc]
      exact ⟨le_refl 0, le_refl 0, le_refl 0, le_refl 0⟩
  · rw [hrow]
    simp [List.getD]

theorem matNonneg_mset {m : Mat} (hm : MatNonneg m) {v : ℚ} (hv : 0 ≤ v)
    (y x : ℕ) : MatNonneg (mset m y x v) := by
  intro y' x'
  rcases mget_mset_cases m y x y' x' v with h | h
  · rw [h]; exact hv
  · rw [h]; exact hm y' x'

theorem matNonneg_replicate (a b : ℕ) :
    MatNonneg (List.replicate a (List.replicate b (0 : ℚ))) := by
  intro y x
  rw [mget_replicate_zero]

theorem sliceSum_nonneg {m : Mat} (hm : MatNonneg m) (lo hi : ℤ) (x : ℕ) :
    0 ≤ sliceSum m lo hi x := by
  unfold sliceSum
  refine List.sum_nonneg ?_
  intro q hq
  obtain ⟨j, _, hj⟩ := List.mem_map.1 hq
  rw [← hj]
  exact hm _ _

theorem step2_row_nonneg {s : Mat} {cl cr : Cross} (hcl : CrossNonneg cl)
    (hcr : CrossNonneg cr) (y : ℕ) (ps : List (ℕ × ℕ)) {acc : Mat × Mat}
    (hacc : MatNonneg acc.2) : MatNonneg (step2_row s cl cr y ps acc).2 := by
  induction ps generalizing acc with
  | nil => exact hacc
  | cons p ps ih =>
    rw [step2_row_cons]
    refine ih ?_
    show MatNonneg (mset acc.2 y p.1 _)
    refine matNonneg_mset hacc ?_ y p.1
    have h1 := cget_nonneg hcl y p.1
    have h2 := cget_nonneg hcr y p.2
    have hr : (0 : ℤ) ≤ min (cget cl y p.1).right (cget cr y p.2).right :=
      le_min h1.2.1 h2.2.1
    have hl : (0 : ℤ) ≤ min (cget cl y p.1).left (cget cr y p.2).left :=
      le_min h1.1 h2.1
    have := hacc y p.1
    have hcast : (0 : ℚ) ≤ ((min (cget cl y p.1).right (cget cr y p.2).right +
        min (cget cl y p.1).left (cget cr y p.2).left : ℤ) : ℚ) := by
      exact_mod_cast add_nonneg hr hl
    linarith

theorem step2_outer_nonneg {s : Mat} {cl cr : Cross} (hcl : CrossNonneg cl)
    (hcr : CrossNonneg cr) (ps : List (ℕ × ℕ)) (ys : List ℕ) {acc : Mat × Mat}
    (hacc : MatNonneg acc.2) :
    MatNonneg ((ys.foldl (fun a (y : ℕ) => step2_row s cl cr y ps a) acc)).2 := by
  induction ys generalizing acc with
  | nil => exact hacc
  | cons y ys ih =>
    rw [List.foldl_cons]
    exact ih (step2_row_nonneg hcl hcr y ps hacc)

theorem step2_snd_nonneg (s : Mat) {cl cr : Cross} (hcl : CrossNonneg cl)
    (hcr : CrossNonneg cr) (rc rcr : List ℕ) :
    MatNonneg (cbca_step_2 s cl cr rc rcr).2 := by
  have hdef : cbca_step_2 s cl cr rc rcr =
      (List.range s.length).foldl
        (fun a (y : ℕ) => step2_row s cl cr y (rc.zip rcr) a)
        (List.replicate s.length (List.replicate ((s.headD []).length - 1) 0),
         List.replicate s.length (List.replicate ((s.headD []).length - 1) 0)) := rfl
  rw [hdef]
  exact step2_outer_nonneg hcl hcr _ _
    (matNonneg_replicate s.length ((s.headD []).length - 1))

theorem step4_row_nonneg {s3 s2 : Mat} {cl cr : Cross} (hcl : CrossNonneg cl)
    (hcr : CrossNonneg cr) (hs2 : MatNonneg s2) (y : ℕ) (ps : List (ℕ × ℕ))
    {acc : Mat × Mat} (hacc : MatNonneg acc.2) :
    MatNonneg (step4_row s3 s2 cl cr y ps acc).2 := by
  induction ps generalizing acc with
  | nil => exact hacc
  | cons p ps ih =>
    rw [step4_row_cons]
    refine ih ?_
    show MatNonneg (mset acc.2 y p.1 _)
    refine matNonneg_mset hacc ?_ y p.1
    have h1 := cget_nonneg hcl y p.1
    have h2 := cget_nonneg hcr y p.2
    have ht : (0 : ℤ) ≤ min (cget cl y p.1).top (cget cr y p.2).top :=
      le_min h1.2.2.1 h2.2.2.1
    have hb : (0 : ℤ) ≤ min (cget cl y p.1).bot (cget cr y p.2).bot :=
      le_min h1.2.2.2 h2.2.2.2
    have hbase : (0 : ℚ) ≤ mget acc.2 y p.1 +
        ((min (cget cl y p.1).top (cget cr y p.2).top +
          min (cget cl y p.1).bot (cget cr y p.2).bot : ℤ) : ℚ) := by
      have := hacc y p.1
      have hcast : (0 : ℚ) ≤ ((min (cget cl y p.1).top (cget cr y p.2).top +
          min (cget cl y p.1).bot (cget cr y p.2).bot : ℤ) : ℚ) := by
        exact_mod_cast add_nonneg ht hb
      linarith
    have hS1 := sliceSum_nonneg hs2
      ((y : ℤ) - min (cget cl y p.1).top (cget cr y p.2).top) (y : ℤ) p.1
    have hS2 := sliceSum_nonneg hs2 ((y : ℤ) + 1)
      ((y : ℤ) + min (cget cl y p.1).bot (cget cr y p.2).bot + 1) p.1
    split <;> split <;> linarith

theorem step4_outer_nonneg {s3 s2 : Mat} {cl cr : Cross} (hcl : CrossNonneg cl)
    (hcr : CrossNonneg cr) (hs2 : MatNonneg s2) (ps : List (ℕ × ℕ)) (ys : List ℕ)
    {acc : Mat × Mat} (hacc : MatNonneg acc.2) :
    MatNonneg ((ys.foldl (fun a (y : ℕ) => step4_row s3 s2 cl cr y ps a) acc)).2 := by
  induction ys generalizing acc with
  | nil => exact hacc
  | cons y ys ih =>
    rw [List.foldl_cons]
    exact ih (step4_row_nonneg hcl hcr hs2 y ps hacc)

theorem layer_sum4_nonneg (slice : OMat) {cl cr : Cross} (hcl : CrossNonneg cl)
    (hcr : CrossNonneg cr) (rc rcr : List ℕ) :
    MatNonneg (layer_sum4 slice cl cr rc rcr) := by
  have hs2 := step2_snd_nonneg (cbca_step_1 slice) hcl hcr rc rcr
  have hdef : layer_sum4 slice cl cr rc rcr =
      ((List.range ((cbca_step_3 (cbca_step_2 (cbca_step_1 slice) cl cr rc rcr).1).length
          - 1)).foldl
        (fun a (y : ℕ) => step4_row
          (cbca_step_3 (cbca_step_2 (cbca_step_1 slice) cl cr rc rcr).1)
          (cbca_step_2 (cbca_step_1 slice) cl cr rc rcr).2 cl cr y (rc.zip rcr) a)
        (List.replicate
          ((cbca_step_3 (cbca_step_2 (cbca_step_1 slice) cl cr rc rcr).1).length - 1)
          (List.replicate
            (((cbca_step_3 (cbca_step_2 (cbca_step_1 slice) cl cr rc rcr).1).headD
              []).length) 0),
         (cbca_step_2 (cbca_step_1 slice) cl cr rc rcr).2)).2 := rfl
  rw [hdef]
  exact step4_outer_nonneg hcl hcr hs2 _ _ hs2

/-- **C10.** The normalization denominator of `cost_volume_aggregation` — the
per-pixel total support count `sum4` plus 1 for the anchor — is positive at
every pixel of every disparity layer (pixels outside the valid-column set
keep count 0 and get denominator 1), for every cost slice and all
cross-support tensors with nonnegative arm lengths (which is every tensor
`cross_support` can produce): the final per-pixel division never divides by
zero. -/
theorem C10_denominator_pos (slice : OMat) (cl cr : Cross) (rc rcr : List ℕ)
    (hcl : CrossNonneg cl) (hcr : CrossNonneg cr) (y x : ℕ) :
    0 < mget (layer_sum4 slice cl cr rc rcr) y x + 1 := by
  have := layer_sum4_nonneg slice hcl hcr rc rcr y x
  linarith

theorem cva_layer (cl cr : Cross) {cv : List OMat} {disps : List ℤ} {d : ℕ}
    (hd : d < cv.length) (hd2 : d < disps.length) :
    (cost_volume_aggregation cv disps cl cr).getD d [] =
      aggregate_layer (cv.getD d []) cl cr
        (valid_range_col ((cv.getD d []).headD []).length (disps.getD d 0)
          ((cr.headD []).length))
        ((valid_range_col ((cv.getD d []).headD []).length (disps.getD d 0)
          ((cr.headD []).length)).map fun c => ((c : ℤ) + disps.getD d 0).toNat) := by
  have hdef : cost_volume_aggregation cv disps cl cr =
      (cv.zip disps).map (fun sd =>
        aggregate_layer sd.1 cl cr
          (valid_range_col ((sd.1.headD []).length) sd.2 ((cr.headD []).length))
          ((valid_range_col ((sd.1.headD []).length) sd.2
            ((cr.headD []).length)).map fun c => ((c : ℤ) + sd.2).toNat)) := rfl
  rw [hdef, zipMap_getD _ hd hd2 [] [] 0]

theorem aggregate_layer_cell (slice : OMat) (cl cr : Cross) (rc rcr : List ℕ)
    {y x : ℕ} (hy : y < slice.length) (hx : x < (slice.headD []).length) :
    iget (aggregate_layer slice cl cr rc rcr) y x =
      (iget slice y x).map fun _ =>
        mget (layer_step4 slice cl cr rc rcr) y x /
          (mget (layer_sum4 slice cl cr rc rcr) y x + 1) := by
  have hdef : aggregate_layer slice cl cr rc rcr =
      (List.range slice.length).map fun yy => (List.range (slice.headD []).length).map
        fun xx => (iget slice yy xx).map fun _ =>
          mget (layer_step4 slice cl cr rc rcr) yy xx /
            (mget (layer_sum4 slice cl cr rc rcr) yy xx + 1) := rfl
  unfold iget
  rw [hdef, rangeMap_getD _ hy, rangeMap_getD _ hx]
  rfl

theorem not_mem_valid_range_col {nx : ℕ} {d : ℤ} {rnx : ℕ} {x : ℕ}
    (hout : ¬(0 ≤ (x : ℤ) + d ∧ (x : ℤ) + d < (rnx : ℤ))) :
    x ∉ valid_range_col nx d rnx := by
  intro hmem
  unfold valid_range_col at hmem
  obtain ⟨-, hcond⟩ := List.mem_filter.1 hmem
  rw [Bool.and_eq_true, decide_eq_true_eq, decide_eq_true_eq] at hcond
  exact hout hcond

theorem layer_outside_zero (slice : OMat) (cl cr : Cross) {rc : List ℕ}
    (rcr : List ℕ) {x : ℕ} (hnot : x ∉ rc) (y : ℕ) :
    mget (layer_step4 slice cl cr rc rcr) y x = 0 ∧
    mget (layer_sum4 slice cl cr rc rcr) y x = 0 := by
  have havoid : ∀ p ∈ rc.zip rcr, p.1 ≠ x := by
    intro p hp he
    exact hnot (he ▸ (List.of_mem_zip hp).1)
  have hdef4 : (layer_step4 slice cl cr rc rcr, layer_sum4 slice cl cr rc rcr) =
      (List.range ((cbca_step_3 (cbca_step_2 (cbca_step_1 slice) cl cr rc rcr).1).length
          - 1)).foldl
        (fun a (y : ℕ) => step4_row
          (cbca_step_3 (cbca_step_2 (cbca_step_1 slice) cl cr rc rcr).1)
          (cbca_step_2 (cbca_step_1 slice) cl cr rc rcr).2 cl cr y (rc.zip rcr) a)
        (List.replicate
          ((cbca_step_3 (cbca_step_2 (cbca_step_1 slice) cl cr rc rcr).1).length - 1)
          (List.replicate
            (((cbca_step_3 (cbca_step_2 (cbca_step_1 slice) cl cr rc rcr).1).headD
              []).length) 0),
         (cbca_step_2 (cbca_step_1 slice) cl cr rc rcr).2) := rfl
  have h4 := step4_outer_avoid
    (cbca_step_3 (cbca_step_2 (cbca_step_1 slice) cl cr rc rcr).1)
    (cbca_step_2 (cbca_step_1 slice) cl cr rc rcr).2 cl cr havoid
    (List.range ((cbca_step_3 (cbca_step_2 (cbca_step_1 slice) cl cr rc rcr).1).length
      - 1))
    (List.replicate
      ((cbca_step_3 (cbca_step_2 (cbca_step_1 slice) cl cr rc rcr).1).length - 1)
      (List.replicate
        (((cbca_step_3 (cbca_step_2 (cbca_step_1 slice) cl cr rc rcr).1).headD
          []).length) 0),
     (cbca_step_2 (cbca_step_1 slice) cl cr rc rcr).2) y
  have hdef2 : cbca_step_2 (cbca_step_1 slice) cl cr rc rcr =
      (List.range (cbca_step_1 slice).length).foldl
        (fun a (y : ℕ) => step2_row (cbca_step_1 slice) cl cr y (rc.zip rcr) a)
        (List.replicate (cbca_step_1 slice).length
          (List.replicate (((cbca_step_1 slice).headD []).length - 1) 0),
         List.replicate (cbca_step_1 slice).length
          (List.replicate (((cbca_step_1 slice).headD []).length - 1) 0)) := rfl
  have h2 := step2_outer_avoid (cbca_step_1 slice) cl cr havoid
    (List.range (cbca_step_1 slice).length)
    (List.replicate (cbca_step_1 slice).length
      (List.replicate (((cbca_step_1 slice).headD []).length - 1) 0),
     List.replicate (cbca_step_1 slice).length
      (List.replicate (((cbca_step_1 slice).headD []).length - 1) 0)) y
  constructor
  · have hfst := congrArg Prod.fst hdef4
    rw [show (layer_step4 slice cl cr rc rcr, layer_sum4 slice cl cr rc rcr).1 =
      layer_step4 slice cl cr rc rcr from rfl] at hfst
    rw [hfst, h4.1]
    exact mget_replicate_zero _ _ _ _
  · have hsnd := congrArg Prod.snd hdef4
    rw [show (layer_step4 slice cl cr rc rcr, layer_sum4 slice cl cr rc rcr).2 =
      layer_sum4 slice cl cr rc rcr from rfl] at hsnd
    rw [hsnd, h4.2]
    show mget (cbca_step_2 (cbca_step_1 slice) cl cr rc rcr).2 y x = 0
    rw [hdef2, h2.2]
    exact mget_replicate_zero _ _ _ _

/-- **C5.** Every cost-volume cell holding NaN in the input still holds NaN
after `cost_volume_aggregation` (so in particular the cells never covered by
a finite-cost contribution do): the `agg += cv; agg *= 0` seeding keeps NaN
(in IEEE arithmetic `NaN * 0 = NaN`), and the subsequent `+= step4` and
`/= sum4 + 1` keep NaN cells NaN. -/
theorem C5_nan_preserved (cv : List OMat) (disps : List ℤ) (cl cr : Cross)
    (d y x : ℕ) (hd : d < cv.length) (hd2 : d < disps.length)
    (hy : y < (cv.getD d []).length) (hx : x < ((cv.getD d []).headD []).length)
    (hnan : vget cv d y x = none) :
    vget (cost_volume_aggregation cv disps cl cr) d y x = none := by
  unfold vget
  rw [cva_layer cl cr hd hd2, aggregate_layer_cell _ cl cr _ _ hy hx]
  unfold vget at hnan
  rw [hnan]
  rfl

/-- **C1 (amended).** Cells whose column lies outside the valid-column set
for their disparity layer do not keep their pre-aggregation cost value:
after `cost_volume_aggregation` such a cell holds 0 whenever the input cost
was finite (and stays NaN when it was NaN): only the NaN/finite status of
these cells survives, because the orchestrator's `agg += cv; agg *= 0`
seeding zeroes every finite cost before the aggregation passes run, and the
passes never write outside the valid-column set (their contribution stays 0
and the count-denominator stays 0 + 1 = 1 there). -/
theorem C1_outside_columns (cv : List OMat) (disps : List ℤ) (cl cr : Cross)
    (d y x : ℕ) (hd : d < cv.length) (hd2 : d < disps.length)
    (hy : y < (cv.getD d []).length) (hx : x < ((cv.getD d []).headD []).length)
    (hout : ¬(0 ≤ (x : ℤ) + disps.getD d 0 ∧
      (x : ℤ) + disps.getD d 0 < ((cr.headD []).length : ℤ))) :
    vget (cost_volume_aggregation cv disps cl cr) d y x =
      (vget cv d y x).map fun _ => 0 := by
  unfold vget
  rw [cva_layer cl cr hd hd2, aggregate_layer_cell _ cl cr _ _ hy hx]
  have hzero := layer_outside_zero (cv.getD d []) cl cr
    ((valid_range_col ((cv.getD d []).headD []).length (disps.getD d 0)
      ((cr.headD []).length)).map fun c => ((c : ℤ) + disps.getD d 0).toNat)
    (@not_mem_valid_range_col ((cv.getD d []).headD []).length (disps.getD d 0)
      ((cr.headD []).length) x hout) y
  have hfun : (fun _ : ℚ =>
      mget (layer_step4 (cv.getD d []) cl cr
        (valid_range_col ((cv.getD d []).headD []).length (disps.getD d 0)
          ((cr.headD []).length))
        ((valid_range_col ((cv.getD d []).headD []).length (disps.getD d 0)
          ((cr.headD []).length)).map fun c => ((c : ℤ) + disps.getD d 0).toNat)) y x /
        (mget (layer_sum4 (cv.getD d []) cl cr
          (valid_range_col ((cv.getD d []).headD []).length (disps.getD d 0)
            ((cr.headD []).length))
          ((valid_range_col ((cv.getD d []).headD []).length (disps.getD d 0)
            ((cr.headD []).length)).map fun c => ((c : ℤ) + disps.getD d 0).toNat)) y x
          + 1)) = fun _ : ℚ => (0 : ℚ) := by
    funext t
    rw [hzero.1, hzero.2]
    norm_num
  rw [hfun]

/-- **C1 (counterexample).** A 1x1 cost volume with finite cost 3 at its only
cell and disparity 1 (so column 0 shifts outside the right image's single
column): after `cost_volume_aggregation` the cell holds 0, not its
pre-aggregation value 3 — the cell is modified, refuting the claim that
cells outside the valid-column set are left unmodified. -/
theorem C1_counterexample :
    vget (cost_volume_aggregation [[[some 3]]] [1] [[⟨0, 0, 0, 0⟩]]
      [[⟨0, 0, 0, 0⟩]]) 0 0 0 = some 0 ∧
    vget [[[some (3 : ℚ)]]] 0 0 0 = some 3 ∧ some (0 : ℚ) ≠ some (3 : ℚ) := by
  refine ⟨?_, by decide, by decide⟩
  show vget (cost_volume_aggregation [[[some 3]]] [1] [[⟨0, 0, 0, 0⟩]]
    [[⟨0, 0, 0, 0⟩]]) 0 0 0 = some 0
  unfold vget
  rw [cva_layer [[⟨0, 0, 0, 0⟩]] [[⟨0, 0, 0, 0⟩]] (by decide) (by decide),
    aggregate_layer_cell _ _ _ _ _ (by decide) (by decide)]
  have hzero := layer_outside_zero ([[[some (3 : ℚ)]]].getD 0 []) [[⟨0, 0, 0, 0⟩]]
    [[⟨0, 0, 0, 0⟩]]
    ((valid_range_col (([[[some (3 : ℚ)]]].getD 0 []).headD []).length
      (([1] : List ℤ).getD 0 0) (([[⟨0, 0, 0, 0⟩]] : Cross).headD []).length).map
        fun c => ((c : ℤ) + ([1] : List ℤ).getD 0 0).toNat)
    (show (0 : ℕ) ∉ valid_range_col (([[[some (3 : ℚ)]]].getD 0 []).headD []).length
      (([1] : List ℤ).getD 0 0) (([[⟨0, 0, 0, 0⟩]] : Cross).headD []).length by decide)
    0
  rw [hzero.1, hzero.2]
  norm_num [iget]

/-- **C2 (counterexample).** `cbca_step_1` applied to the single row
`[3.0, NaN, 2.0]` does not return `[0, 3.0, 3.0, 5.0]`: the sentinel zero
column is not a leading one. -/
theorem C2_counterexample :
    cbca_step_1 [[some 3, none, some 2]] ≠ [[0, 3, 3, 5]] := by
  norm_num [cbca_step_1, mset, mget, sget, iget, List.range_succ,
    List.replicate_succ, List.set_cons_zero, List.set_cons_succ]

/-- **C2 (amended).** `cbca_step_1` applied to the single row `[3.0, NaN, 2.0]`
returns `[3.0, 3.0, 5.0, 0]`: the running sums followed by one extra
*trailing* sentinel column holding 0 (reached through index `-1` wrap-around
when step 2 looks up `col - left - 1 = -1`), where the NaN entry contributes
no increment but the prior running total is carried forward (not reset). -/
theorem C2_amended :
    cbca_step_1 [[some 3, none, some 2]] = [[3, 3, 5, 0]] := by
  norm_num [cbca_step_1, mset, mget, sget, iget, List.range_succ,
    List.replicate_succ, List.set_cons_zero, List.set_cons_succ]

/-- **C4 (code bug).** `check_conf` accepts a configuration whose
`aggregation_method` is a string different from `"cbca"`: the schema's
validator `And(str, lambda x: 'cbca')` ignores its argument and returns the
constant nonempty — hence truthy — string `'cbca'`, so every string passes.
The claim (and the schema's evident intent, an equality test against
`'cbca'`) says such a configuration must fail at construction. -/
theorem C4_wrong_method_accepted :
    check_conf ⟨"wrong_method", none, none⟩ = true ∧
    check_conf ⟨"cbca", none, none⟩ = true := by
  constructor <;> rfl

theorem armWalk_fst_le (probe : ℤ → Option ℚ) (anchor t : ℚ) (step : ℤ) :
    ∀ (fuel : ℕ) (cur : ℤ), (armWalk probe anchor t step fuel cur).1 ≤ fuel := by
  intro fuel
  induction fuel with
  | zero => intro cur; exact le_refl 0
  | succ n ih =>
    intro cur
    rw [armWalk]
    cases hp : probe (cur + step) with
    | none =>
      simp only [hp]
      exact Nat.zero_le _
    | some v =>
      simp only [hp]
      by_cases hcmp : t ≤ |anchor - v|
      · rw [if_pos hcmp]
        exact Nat.zero_le _
      · rw [if_neg hcmp]
        exact Nat.succ_le_succ (ih (cur + step))

theorem armWalk_const (probe : ℤ → Option ℚ) (c t : ℚ) (step : ℤ) (ht : 0 < t) :
    ∀ (fuel : ℕ) (cur : ℤ),
      (∀ j : ℕ, j < fuel → probe (cur + step * (j + 1)) = some c) →
      armWalk probe c t step fuel cur = (fuel, cur + step * fuel) := by
  intro fuel
  induction fuel with
  | zero =>
    intro cur _
    refine Prod.ext rfl ?_
    show cur = cur + step * ((0 : ℕ) : ℤ)
    push_cast
    ring
  | succ n ih =>
    intro cur hall
    have h0 : probe (cur + step) = some c := by
      have h00 := hall 0 (Nat.succ_pos n)
      rw [← h00]
      congr 1
      push_cast
      ring
    have hcond : ¬ t ≤ |c - c| := by
      rw [sub_self, abs_zero]
      exact not_le.mpr ht
    have hrest : ∀ j : ℕ, j < n → probe (cur + step + step * (j + 1)) = some c := by
      intro j hj
      have hjj := hall (j + 1) (by omega)
      rw [← hjj]
      congr 1
      push_cast
      ring
    rw [armWalk]
    simp only [h0, if_neg hcond, ih (cur + step) hrest]
    refine Prod.ext rfl ?_
    show cur + step + step * ((n : ℕ) : ℤ) = cur + step * (((n : ℕ) + 1 : ℕ) : ℤ)
    push_cast
    ring

theorem cross_support_cell {img : OMat} (L : ℤ) (t : ℚ) {y x : ℕ}
    (hy : y < img.length) (hx : x < (img.headD []).length) :
    cget (cross_support img L t) y x =
      cross_pixel img img.length (img.headD []).length L t y x := by
  unfold cget cross_support
  rw [rangeMap_getD _ hy, rangeMap_getD _ hx]

theorem cross_pixel_none (img : OMat) (ny nx : ℕ) (L : ℤ) (t : ℚ) (y x : ℕ)
    (h : iget img y x = none) : cross_pixel img ny nx L t y x = ⟨0, 0, 0, 0⟩ := by
  unfold cross_pixel
  rw [h]

theorem cross_pixel_left (img : OMat) (ny nx : ℕ) (L : ℤ) (t : ℚ) (y x : ℕ)
    (a : ℚ) (h : iget img y x = some a) :
    (cross_pixel img ny nx L t y x).left =
      max ((armWalk (probeRow img y) a t (-1)
          (((x : ℤ) - 1 - max ((x : ℤ) - L) (-1)).toNat) x).1 : ℤ)
        (if 1 ≤ x ∧ (probeRow img y (armWalk (probeRow img y) a t (-1)
            (((x : ℤ) - 1 - max ((x : ℤ) - L) (-1)).toNat) x).2).isSome
          then 1 else 0) := by
  unfold cross_pixel
  rw [h]

theorem cross_pixel_right (img : OMat) (ny nx : ℕ) (L : ℤ) (t : ℚ) (y x : ℕ)
    (a : ℚ) (h : iget img y x = some a) :
    (cross_pixel img ny nx L t y x).right =
      max ((armWalk (probeRow img y) a t 1
          ((min ((x : ℤ) + L) (nx : ℤ) - ((x : ℤ) + 1)).toNat) x).1 : ℤ)
        (if (x : ℤ) < (nx : ℤ) - 1 ∧ (probeRow img y (armWalk (probeRow img y) a t 1
            ((min ((x : ℤ) + L) (nx : ℤ) - ((x : ℤ) + 1)).toNat) x).2).isSome
          then 1 else 0) := by
  unfold cross_pixel
  rw [h]

theorem cross_pixel_top (img : OMat) (ny nx : ℕ) (L : ℤ) (t : ℚ) (y x : ℕ)
    (a : ℚ) (h : iget img y x = some a) :
    (cross_pixel img ny nx L t y x).top =
      max ((armWalk (probeCol img x) a t (-1)
          (((y : ℤ) - 1 - max ((y : ℤ) - L) (-1)).toNat) y).1 : ℤ)
        (if 1 ≤ y ∧ (probeCol img x (armWalk (probeCol img x) a t (-1)
            (((y : ℤ) - 1 - max ((y : ℤ) - L) (-1)).toNat) y).2).isSome
          then 1 else 0) := by
  unfold cross_pixel
  rw [h]

theorem cross_pixel_bot (img : OMat) (ny nx : ℕ) (L : ℤ) (t : ℚ) (y x : ℕ)
    (a : ℚ) (h : iget img y x = some a) :
    (cross_pixel img ny nx L t y x).bot =
      max ((armWalk (probeCol img x) a t 1
          ((min ((y : ℤ) + L) (ny : ℤ) - ((y : ℤ) + 1)).toNat) y).1 : ℤ)
        (if (y : ℤ) < (ny : ℤ) - 1 ∧ (probeCol img x (armWalk (probeCol img x) a t 1
            ((min ((y : ℤ) + L) (ny : ℤ) - ((y : ℤ) + 1)).toNat) y).2).isSome
          then 1 else 0) := by
  unfold cross_pixel
  rw [h]

theorem arm_bound {L : ℤ} (hL : 1 ≤ L) {w f : ℕ} (hw : w ≤ f)
    (hf : (f : ℤ) ≤ L - 1) (b : Prop) [Decidable b] :
    0 ≤ max (w : ℤ) (if b then 1 else 0) ∧
    max (w : ℤ) (if b then 1 else 0) ≤ L := by
  by_cases hb : b
  · rw [if_pos hb]
    omega
  · rw [if_neg hb]
    omega

theorem max_if_le {w : ℕ} {dist : ℤ} (hw : (w : ℤ) ≤ dist) {C : Prop}
    [Decidable C] (hC : C → 1 ≤ dist) (h0 : 0 ≤ dist) :
    max (w : ℤ) (if C then 1 else 0) ≤ dist := by
  by_cases hc : C
  · rw [if_pos hc]
    exact max_le hw (hC hc)
  · rw [if_neg hc]
    exact max_le hw h0

/-- **C9.** Invariants of `cross_support`, for every raster and valid
parameters `len_arms > 0`, `intensity > 0`: a pixel whose raster value is
non-finite (`none`) has all four arm lengths 0, and a pixel with a finite
value has each of its four arm lengths in the range `[0, len_arms]`. -/
theorem C9_invariants (img : OMat) (L : ℤ) (t : ℚ) (hL : 1 ≤ L) (ht : 0 < t)
    (y x : ℕ) (hy : y < img.length) (hx : x < (img.headD []).length) :
    (iget img y x = none → cget (cross_support img L t) y x = ⟨0, 0, 0, 0⟩) ∧
    (∀ a : ℚ, iget img y x = some a →
      (0 ≤ (cget (cross_support img L t) y x).left ∧
        (cget (cross_support img L t) y x).left ≤ L) ∧
      (0 ≤ (cget (cross_support img L t) y x).right ∧
        (cget (cross_support img L t) y x).right ≤ L) ∧
      (0 ≤ (cget (cross_support img L t) y x).top ∧
        (cget (cross_support img L t) y x).top ≤ L) ∧
      (0 ≤ (cget (cross_support img L t) y x).bot ∧
        (cget (cross_support img L t) y x).bot ≤ L)) := by
  rw [cross_support_cell L t hy hx]
  constructor
  · intro h
    exact cross_pixel_none img _ _ L t y x h
  · intro a h
    refine ⟨?_, ?_, ?_, ?_⟩
    · rw [cross_pixel_left img _ _ L t y x a h]
      exact arm_bound hL (armWalk_fst_le _ _ _ _ _ _) (by omega) _
    · rw [cross_pixel_right img _ _ L t y x a h]
      exact arm_bound hL (armWalk_fst_le _ _ _ _ _ _) (by omega) _
    · rw [cross_pixel_top img _ _ L t y x a h]
      exact arm_bound hL (armWalk_fst_le _ _ _ _ _ _) (by omega) _
    · rw [cross_pixel_bot img _ _ L t y x a h]
      exact arm_bound hL (armWalk_fst_le _ _ _ _ _ _) (by omega) _

theorem probeRow_of_nonneg {i : ℤ} (h : 0 ≤ i) (img : OMat) (y : ℕ) :
    probeRow img y i = iget img y i.toNat := by
  unfold probeRow
  rw [if_pos h]

theorem probeCol_of_nonneg {i : ℤ} (h : 0 ≤ i) (img : OMat) (x : ℕ) :
    probeCol img x i = iget img i.toNat x := by
  unfold probeCol
  rw [if_pos h]

theorem allEq_iget {img : OMat} {c : ℚ} (hrect : RectIm img) (hall : AllEqIm img c) :
    ∀ y x : ℕ, y < img.length → x < (img.headD []).length → iget img y x = some c := by
  intro y x hy hx
  unfold iget
  have hrow : img.getD y [] ∈ img := by
    rw [List.getD_eq_getElem?_getD, List.getElem?_eq_getElem hy]
    exact List.getElem_mem hy
  have hlen : (img.getD y []).length = (img.headD []).length := hrect _ hrow
  have hxl : x < (img.getD y []).length := by omega
  have hcell : ∀ (row : List (Option ℚ)), x < row.length → row.getD x none ∈ row := by
    intro row hxr
    rw [List.getD_eq_getElem?_getD, List.getElem?_eq_getElem hxr]
    exact List.getElem_mem hxr
  exact hall _ hrow _ (hcell _ hxl)

/-- **C3 (amended).** For every rectangular raster whose stored values are
all equal and finite, `cross_support` with maximum arm length 2 and
intensity threshold 1.0 gives every interior pixel (distance at least 2 from
every border) all four arm lengths equal to **1** — the walk probes at most
`len_arms - 1 = 1` samples per direction, so the arms cannot reach 2 — and
gives every pixel arm lengths bounded by its distance to the border. -/
theorem C3_all_equal (img : OMat) (c : ℚ) (hrect : RectIm img)
    (hall : AllEqIm img c) :
    (∀ y x : ℕ, 2 ≤ y → y + 2 < img.length → 2 ≤ x → x + 2 < (img.headD []).length →
      cget (cross_support img 2 1) y x = ⟨1, 1, 1, 1⟩) ∧
    (∀ y x : ℕ, y < img.length → x < (img.headD []).length →
      (cget (cross_support img 2 1) y x).left ≤ (x : ℤ) ∧
      (cget (cross_support img 2 1) y x).right ≤
        ((img.headD []).length : ℤ) - 1 - (x : ℤ) ∧
      (cget (cross_support img 2 1) y x).top ≤ (y : ℤ) ∧
      (cget (cross_support img 2 1) y x).bot ≤ (img.length : ℤ) - 1 - (y : ℤ)) := by
  have hsome := allEq_iget hrect hall
  constructor
  · intro y x hy1 hy2 hx1 hx2
    have hy : y < img.length := by omega
    have hx : x < (img.headD []).length := by omega
    rw [cross_support_cell 2 1 hy hx]
    have hl : (cross_pixel img img.length (img.headD []).length 2 1 y x).left = 1 := by
      rw [cross_pixel_left img _ _ 2 1 y x c (hsome y x hy hx)]
      rw [show (((x : ℤ) - 1 - max ((x : ℤ) - 2) (-1)).toNat) = 1 from by omega]
      have hwalk : armWalk (probeRow img y) c 1 (-1) 1 (x : ℤ) =
          (1, (x : ℤ) + (-1) * ((1 : ℕ) : ℤ)) := by
        refine armWalk_const (probeRow img y) c 1 (-1) one_pos 1 (x : ℤ) ?_
        intro j hj
        have hj0 : j = 0 := by omega
        subst hj0
        rw [probeRow_of_nonneg (by omega)]
        rw [show ((x : ℤ) + (-1) * (((0 : ℕ) : ℤ) + 1)).toNat = x - 1 from by omega]
        exact hsome y (x - 1) hy (by omega)
      have hw1 : (armWalk (probeRow img y) c 1 (-1) 1 (x : ℤ)).1 = 1 := by rw [hwalk]
      have hw2 : (armWalk (probeRow img y) c 1 (-1) 1 (x : ℤ)).2 =
          (x : ℤ) + (-1) * ((1 : ℕ) : ℤ) := by rw [hwalk]
      rw [hw1, hw2]
      have hpr : probeRow img y ((x : ℤ) + (-1) * ((1 : ℕ) : ℤ)) = some c := by
        rw [probeRow_of_nonneg (by omega)]
        rw [show ((x : ℤ) + (-1) * ((1 : ℕ) : ℤ)).toNat = x - 1 from by omega]
        exact hsome y (x - 1) hy (by omega)
      rw [hpr]
      rw [if_pos ⟨by omega, rfl⟩]
      norm_num
    have hr : (cross_pixel img img.length (img.headD []).length 2 1 y x).right = 1 := by
      rw [cross_pixel_right img _ _ 2 1 y x c (hsome y x hy hx)]
      rw [show ((min ((x : ℤ) + 2) (((img.headD []).length : ℕ) : ℤ) -
        ((x : ℤ) + 1)).toNat) = 1 from by omega]
      have hwalk : armWalk (probeRow img y) c 1 1 1 (x : ℤ) =
          (1, (x : ℤ) + 1 * ((1 : ℕ) : ℤ)) := by
        refine armWalk_const (probeRow img y) c 1 1 one_pos 1 (x : ℤ) ?_
        intro j hj
        have hj0 : j = 0 := by omega
        subst hj0
        rw [probeRow_of_nonneg (by omega)]
        rw [show ((x : ℤ) + 1 * (((0 : ℕ) : ℤ) + 1)).toNat = x + 1 from by omega]
        exact hsome y (x + 1) hy (by omega)
      have hw1 : (armWalk (probeRow img y) c 1 1 1 (x : ℤ)).1 = 1 := by rw [hwalk]
      have hw2 : (armWalk (probeRow img y) c 1 1 1 (x : ℤ)).2 =
          (x : ℤ) + 1 * ((1 : ℕ) : ℤ) := by rw [hwalk]
      rw [hw1, hw2]
      have hpr : probeRow img y ((x : ℤ) + 1 * ((1 : ℕ) : ℤ)) = some c := by
        rw [probeRow_of_nonneg (by omega)]
        rw [show ((x : ℤ) + 1 * ((1 : ℕ) : ℤ)).toNat = x + 1 from by omega]
        exact hsome y (x + 1) hy (by omega)
      rw [hpr]
      rw [if_pos ⟨by omega, rfl⟩]
      norm_num
    have ht' : (cross_pixel img img.length (img.headD []).length 2 1 y x).top = 1 := by
      rw [cross_pixel_top img _ _ 2 1 y x c (hsome y x hy hx)]
      rw [show (((y : ℤ) - 1 - max ((y : ℤ) - 2) (-1)).toNat) = 1 from by omega]
      have hwalk : armWalk (probeCol img x) c 1 (-1) 1 (y : ℤ) =
          (1, (y : ℤ) + (-1) * ((1 : ℕ) : ℤ)) := by
        refine armWalk_const (probeCol img x) c 1 (-1) one_pos 1 (y : ℤ) ?_
        intro j hj
        have hj0 : j = 0 := by omega
        subst hj0
        rw [probeCol_of_nonneg (by omega)]
        rw [show ((y : ℤ) + (-1) * (((0 : ℕ) : ℤ) + 1)).toNat = y - 1 from by omega]
        exact hsome (y - 1) x (by omega) hx
      have hw1 : (armWalk (probeCol img x) c 1 (-1) 1 (y : ℤ)).1 = 1 := by rw [hwalk]
      have hw2 : (armWalk (probeCol img x) c 1 (-1) 1 (y : ℤ)).2 =
          (y : ℤ) + (-1) * ((1 : ℕ) : ℤ) := by rw [hwalk]
      rw [hw1, hw2]
      have hpc : probeCol img x ((y : ℤ) + (-1) * ((1 : ℕ) : ℤ)) = some c := by
        rw [probeCol_of_nonneg (by omega)]
        rw [show ((y : ℤ) + (-1) * ((1 : ℕ) : ℤ)).toNat = y - 1 from by omega]
        exact hsome (y - 1) x (by omega) hx
      rw [hpc]
      rw [if_pos ⟨by omega, rfl⟩]
      norm_num
    have hb' : (cross_pixel img img.length (img.headD []).length 2 1 y x).bot = 1 := by
      rw [cross_pixel_bot img _ _ 2 1 y x c (hsome y x hy hx)]
      rw [show ((min ((y : ℤ) + 2) ((img.length : ℕ) : ℤ) -
        ((y : ℤ) + 1)).toNat) = 1 from by omega]
      have hwalk : armWalk (probeCol img x) c 1 1 1 (y : ℤ) =
          (1, (y : ℤ) + 1 * ((1 : ℕ) : ℤ)) := by
        refine armWalk_const (probeCol img x) c 1 1 one_pos 1 (y : ℤ) ?_
        intro j hj
        have hj0 : j = 0 := by omega
        subst hj0
        rw [probeCol_of_nonneg (by omega)]
        rw [show ((y : ℤ) + 1 * (((0 : ℕ) : ℤ) + 1)).toNat = y + 1 from by omega]
        exact hsome (y + 1) x (by omega) hx
      have hw1 : (armWalk (probeCol img x) c 1 1 1 (y : ℤ)).1 = 1 := by rw [hwalk]
      have hw2 : (armWalk (probeCol img x) c 1 1 1 (y : ℤ)).2 =
          (y : ℤ) + 1 * ((1 : ℕ) : ℤ) := by rw [hwalk]
      rw [hw1, hw2]
      have hpc : probeCol img x ((y : ℤ) + 1 * ((1 : ℕ) : ℤ)) = some c := by
        rw [probeCol_of_nonneg (by omega)]
        rw [show ((y : ℤ) + 1 * ((1 : ℕ) : ℤ)).toNat = y + 1 from by omega]
        exact hsome (y + 1) x (by omega) hx
      rw [hpc]
      rw [if_pos ⟨by omega, rfl⟩]
      norm_num
    have heta : cross_pixel img img.length (img.headD []).length 2 1 y x =
        ⟨(cross_pixel img img.length (img.headD []).length 2 1 y x).left,
         (cross_pixel img img.length (img.headD []).length 2 1 y x).right,
         (cross_pixel img img.length (img.headD []).length 2 1 y x).top,
         (cross_pixel img img.length (img.headD []).length 2 1 y x).bot⟩ := rfl
    rw [heta, hl, hr, ht', hb']
  · intro y x hy hx
    rw [cross_support_cell 2 1 hy hx]
    refine ⟨?_, ?_, ?_, ?_⟩
    · rw [cross_pixel_left img _ _ 2 1 y x c (hsome y x hy hx)]
      refine max_if_le ?_ (fun hc => by have := hc.1; omega) (by omega)
      have h := armWalk_fst_le (probeRow img y) c 1 (-1)
        (((x : ℤ) - 1 - max ((x : ℤ) - 2) (-1)).toNat) (x : ℤ)
      omega
    · rw [cross_pixel_right img _ _ 2 1 y x c (hsome y x hy hx)]
      refine max_if_le ?_ (fun hc => by have := hc.1; omega) (by omega)
      have h := armWalk_fst_le (probeRow img y) c 1 1
        ((min ((x : ℤ) + 2) (((img.headD []).length : ℕ) : ℤ) - ((x : ℤ) + 1)).toNat)
        (x : ℤ)
      omega
    · rw [cross_pixel_top img _ _ 2 1 y x c (hsome y x hy hx)]
      refine max_if_le ?_ (fun hc => by have := hc.1; omega) (by omega)
      have h := armWalk_fst_le (probeCol img x) c 1 (-1)
        (((y : ℤ) - 1 - max ((y : ℤ) - 2) (-1)).toNat) (y : ℤ)
      omega
    · rw [cross_pixel_bot img _ _ 2 1 y x c (hsome y x hy hx)]
      refine max_if_le ?_ (fun hc => by have := hc.1; omega) (by omega)
      have h := armWalk_fst_le (probeCol img x) c 1 1
        ((min ((y : ℤ) + 2) ((img.length : ℕ) : ℤ) - ((y : ℤ) + 1)).toNat) (y : ℤ)
      omega

/-- **C3 (counterexample).** On the 5x5 all-equal raster of value 10 with
maximum arm length 2 and intensity threshold 1.0, the interior pixel (2,2)
(distance 2 from every border) has all four arm lengths equal to 1, not 2 as
the claim states: the walk of `cross_support` probes the samples of
`range(x-1, max(x-len_arms, -1), -1)` and its three analogues, at most
`len_arms - 1 = 1` samples per direction. -/
theorem C3_counterexample :
    cget (cross_support (List.replicate 5 (List.replicate 5 (some (10 : ℚ)))) 2 1)
      2 2 ≠ ⟨2, 2, 2, 2⟩ := by
  rw [cross_support_cell 2 1 (by decide) (by decide)]
  norm_num [cross_pixel, armWalk, probeRow, probeCol, iget, List.replicate_succ]

/-- **C8.** Minimum-region rule of `cross_support`: for every pixel with a
finite value, in each direction where an in-bounds neighbour exists, that
neighbour's value is finite, and the neighbour differs from the anchor by at
least the intensity threshold (so the walk accepts zero samples), the arm
length in that direction is forced to 1, not 0. -/
theorem C8_min_region (img : OMat) (L : ℤ) (t : ℚ) (y x : ℕ) (a : ℚ)
    (hy : y < img.length) (hx : x < (img.headD []).length)
    (ha : iget img y x = some a) :
    (∀ b : ℚ, 1 ≤ x → iget img y (x - 1) = some b → t ≤ |a - b| →
      (cget (cross_support img L t) y x).left = 1) ∧
    (∀ b : ℚ, (x : ℤ) < ((img.headD []).length : ℤ) - 1 →
      iget img y (x + 1) = some b → t ≤ |a - b| →
      (cget (cross_support img L t) y x).right = 1) ∧
    (∀ b : ℚ, 1 ≤ y → iget img (y - 1) x = some b → t ≤ |a - b| →
      (cget (cross_support img L t) y x).top = 1) ∧
    (∀ b : ℚ, (y : ℤ) < (img.length : ℤ) - 1 → iget img (y + 1) x = some b →
      t ≤ |a - b| → (cget (cross_support img L t) y x).bot = 1) := by
  refine ⟨?_, ?_, ?_, ?_⟩
  · intro b hx1 hb hdiff
    rw [cross_support_cell L t hy hx, cross_pixel_left img _ _ L t y x a ha]
    by_cases h0 : (((x : ℤ) - 1 - max ((x : ℤ) - L) (-1)).toNat) = 0
    · rw [h0]
      have hw1 : (armWalk (probeRow img y) a t (-1) 0 (x : ℤ)).1 = 0 := rfl
      have hw2 : (armWalk (probeRow img y) a t (-1) 0 (x : ℤ)).2 = (x : ℤ) := rfl
      rw [hw1, hw2]
      have hpr : probeRow img y (x : ℤ) = some a := by
        rw [probeRow_of_nonneg (by omega)]
        rw [show ((x : ℤ)).toNat = x from by omega]
        exact ha
      rw [hpr, if_pos ⟨hx1, rfl⟩]
      norm_num
    · obtain ⟨n, hn⟩ := Nat.exists_eq_succ_of_ne_zero h0
      rw [hn]
      have hpr : probeRow img y ((x : ℤ) + (-1)) = some b := by
        rw [probeRow_of_nonneg (by omega)]
        rw [show ((x : ℤ) + (-1)).toNat = x - 1 from by omega]
        exact hb
      have hwalk : armWalk (probeRow img y) a t (-1) (n + 1) (x : ℤ) =
          (0, (x : ℤ) + (-1)) := by
        rw [armWalk]
        simp only [hpr, if_pos hdiff]
      have hw1 : (armWalk (probeRow img y) a t (-1) (n + 1) (x : ℤ)).1 = 0 := by
        rw [hwalk]
      have hw2 : (armWalk (probeRow img y) a t (-1) (n + 1) (x : ℤ)).2 =
          (x : ℤ) + (-1) := by rw [hwalk]
      rw [hw1, hw2, hpr, if_pos ⟨hx1, rfl⟩]
      norm_num
  · intro b hx1 hb hdiff
    rw [cross_support_cell L t hy hx, cross_pixel_right img _ _ L t y x a ha]
    by_cases h0 : ((min ((x : ℤ) + L) (((img.headD []).length : ℕ) : ℤ) -
        ((x : ℤ) + 1)).toNat) = 0
    · rw [h0]
      have hw1 : (armWalk (probeRow img y) a t 1 0 (x : ℤ)).1 = 0 := rfl
      have hw2 : (armWalk (probeRow img y) a t 1 0 (x : ℤ)).2 = (x : ℤ) := rfl
      rw [hw1, hw2]
      have hpr : probeRow img y (x : ℤ) = some a := by
        rw [probeRow_of_nonneg (by omega)]
        rw [show ((x : ℤ)).toNat = x from by omega]
        exact ha
      rw [hpr, if_pos ⟨hx1, rfl⟩]
      norm_num
    · obtain ⟨n, hn⟩ := Nat.exists_eq_succ_of_ne_zero h0
      rw [hn]
      have hpr : probeRow img y ((x : ℤ) + 1) = some b := by
        rw [probeRow_of_nonneg (by omega)]
        rw [show ((x : ℤ) + 1).toNat = x + 1 from by omega]
        exact hb
      have hwalk : armWalk (probeRow img y) a t 1 (n + 1) (x : ℤ) =
          (0, (x : ℤ) + 1) := by
        rw [armWalk]
        simp only [hpr, if_pos hdiff]
      have hw1 : (armWalk (probeRow img y) a t 1 (n + 1) (x : ℤ)).1 = 0 := by
        rw [hwalk]
      have hw2 : (armWalk (probeRow img y) a t 1 (n + 1) (x : ℤ)).2 =
          (x : ℤ) + 1 := by rw [hwalk]
      rw [hw1, hw2, hpr, if_pos ⟨hx1, rfl⟩]
      norm_num
  · intro b hy1 hb hdiff
    rw [cross_support_cell L t hy hx, cross_pixel_top img _ _ L t y x a ha]
    by_cases h0 : (((y : ℤ) - 1 - max ((y : ℤ) - L) (-1)).toNat) = 0
    · rw [h0]
      have hw1 : (armWalk (probeCol img x) a t (-1) 0 (y : ℤ)).1 = 0 := rfl
      have hw2 : (armWalk (probeCol img x) a t (-1) 0 (y : ℤ)).2 = (y : ℤ) := rfl
      rw [hw1, hw2]
      have hpc : probeCol img x (y : ℤ) = some a := by
        rw [probeCol_of_nonneg (by omega)]
        rw [show ((y : ℤ)).toNat = y from by omega]
        exact ha
      rw [hpc, if_pos ⟨hy1, rfl⟩]
      norm_num
    · obtain ⟨n, hn⟩ := Nat.exists_eq_succ_of_ne_zero h0
      rw [hn]
      have hpc : probeCol img x ((y : ℤ) + (-1)) = some b := by
        rw [probeCol_of_nonneg (by omega)]
        rw [show ((y : ℤ) + (-1)).toNat = y - 1 from by omega]
        exact hb
      have hwalk : armWalk (probeCol img x) a t (-1) (n + 1) (y : ℤ) =
          (0, (y : ℤ) + (-1)) := by
        rw [armWalk]
        simp only [hpc, if_pos hdiff]
      have hw1 : (armWalk (probeCol img x) a t (-1) (n + 1) (y : ℤ)).1 = 0 := by
        rw [hwalk]
      have hw2 : (armWalk (probeCol img x) a t (-1) (n + 1) (y : ℤ)).2 =
          (y : ℤ) + (-1) := by rw [hwalk]
      rw [hw1, hw2, hpc, if_pos ⟨hy1, rfl⟩]
      norm_num
  · intro b hy1 hb hdiff
    rw [cross_support_cell L t hy hx, cross_pixel_bot img _ _ L t y x a ha]
    by_cases h0 : ((min ((y : ℤ) + L) ((img.length : ℕ) : ℤ) -
        ((y : ℤ) + 1)).toNat) = 0
    · rw [h0]
      have hw1 : (armWalk (probeCol img x) a t 1 0 (y : ℤ)).1 = 0 := rfl
      have hw2 : (armWalk (probeCol img x) a t 1 0 (y : ℤ)).2 = (y : ℤ) := rfl
      rw [hw1, hw2]
      have hpc : probeCol img x (y : ℤ) = some a := by
        rw [probeCol_of_nonneg (by omega)]
        rw [show ((y : ℤ)).toNat = y from by omega]
        exact ha
      rw [hpc, if_pos ⟨hy1, rfl⟩]
      norm_num
    · obtain ⟨n, hn⟩ := Nat.exists_eq_succ_of_ne_zero h0
      rw [hn]
      have hpc : probeCol img x ((y : ℤ) + 1) = some b := by
        rw [probeCol_of_nonneg (by omega)]
        rw [show ((y : ℤ) + 1).toNat = y + 1 from by omega]
        exact hb
      have hwalk : armWalk (probeCol img x) a t 1 (n + 1) (y : ℤ) =
          (0, (y : ℤ) + 1) := by
        rw [armWalk]
        simp only [hpc, if_pos hdiff]
      have hw1 : (armWalk (probeCol img x) a t 1 (n + 1) (y : ℤ)).1 = 0 := by
        rw [hwalk]
      have hw2 : (armWalk (probeCol img x) a t 1 (n + 1) (y : ℤ)).2 =
          (y : ℤ) + 1 := by rw [hwalk]
      rw [hw1, hw2, hpc, if_pos ⟨hy1, rfl⟩]
      norm_num

/-- Witness for C1: a concrete 1x1 cost volume with disparity -3 (column 0
shifts to -3, outside the right bounds) evaluated through the amended
theorem. -/
theorem C1_witness :
    vget (cost_volume_aggregation [[[some 5]]] [-3] [[⟨0, 0, 0, 0⟩]]
      [[⟨0, 0, 0, 0⟩]]) 0 0 0 = (vget [[[some (5 : ℚ)]]] 0 0 0).map fun _ => 0 :=
  C1_outside_columns [[[some 5]]] [-3] [[⟨0, 0, 0, 0⟩]] [[⟨0, 0, 0, 0⟩]] 0 0 0
    (by decide) (by decide) (by decide) (by decide) (by decide)

/-- Witness for C3: the 5x5 all-10 raster, interior pixel (2,2). -/
theorem C3_witness :
    cget (cross_support (List.replicate 5 (List.replicate 5 (some (10 : ℚ)))) 2 1)
      2 2 = ⟨1, 1, 1, 1⟩ :=
  (C3_all_equal (List.replicate 5 (List.replicate 5 (some (10 : ℚ)))) 10
    (by unfold RectIm; decide) (by unfold AllEqIm; decide)).1 2 2
    (by decide) (by decide) (by decide) (by decide)

/-- Witness for C5: a 1x1 cost volume whose only cell is NaN stays NaN. -/
theorem C5_witness :
    vget (cost_volume_aggregation [[[none]]] [0] [[⟨0, 0, 0, 0⟩]]
      [[⟨0, 0, 0, 0⟩]]) 0 0 0 = none :=
  C5_nan_preserved [[[none]]] [0] [[⟨0, 0, 0, 0⟩]] [[⟨0, 0, 0, 0⟩]] 0 0 0
    (by decide) (by decide) (by decide) (by decide) (by decide)

/-- Witness for C6: a concrete 4-row vertical integral, 3-row horizontal
count matrix, combined arms (1,1) at pixel (1,0). -/
theorem C6_witness :
    mget (cbca_step_4 [[0, 0], [1, 1], [3, 3], [0, 0]] [[1, 2], [3, 4], [5, 6]]
      [[⟨1, 1, 1, 1⟩, ⟨1, 1, 1, 1⟩], [⟨1, 1, 1, 1⟩, ⟨1, 1, 1, 1⟩],
        [⟨1, 1, 1, 1⟩, ⟨1, 1, 1, 1⟩]]
      [[⟨1, 1, 1, 1⟩, ⟨1, 1, 1, 1⟩], [⟨1, 1, 1, 1⟩, ⟨1, 1, 1, 1⟩],
        [⟨1, 1, 1, 1⟩, ⟨1, 1, 1, 1⟩]] [0, 1] [0, 1]).2 1 0 =
      mget [[1, 2], [3, 4], [5, 6]] 1 0 +
        ((min (cget [[⟨1, 1, 1, 1⟩, ⟨1, 1, 1, 1⟩], [⟨1, 1, 1, 1⟩, ⟨1, 1, 1, 1⟩],
            [⟨1, 1, 1, 1⟩, ⟨1, 1, 1, 1⟩]] 1 0).top
          (cget [[⟨1, 1, 1, 1⟩, ⟨1, 1, 1, 1⟩], [⟨1, 1, 1, 1⟩, ⟨1, 1, 1, 1⟩],
            [⟨1, 1, 1, 1⟩, ⟨1, 1, 1, 1⟩]] 1 0).top +
          min (cget [[⟨1, 1, 1, 1⟩, ⟨1, 1, 1, 1⟩], [⟨1, 1, 1, 1⟩, ⟨1, 1, 1, 1⟩],
            [⟨1, 1, 1, 1⟩, ⟨1, 1, 1, 1⟩]] 1 0).bot
          (cget [[⟨1, 1, 1, 1⟩, ⟨1, 1, 1, 1⟩], [⟨1, 1, 1, 1⟩, ⟨1, 1, 1, 1⟩],
            [⟨1, 1, 1, 1⟩, ⟨1, 1, 1, 1⟩]] 1 0).bot : ℤ) : ℚ) +
      (if min (cget [[⟨1, 1, 1, 1⟩, ⟨1, 1, 1, 1⟩], [⟨1, 1, 1, 1⟩, ⟨1, 1, 1, 1⟩],
            [⟨1, 1, 1, 1⟩, ⟨1, 1, 1, 1⟩]] 1 0).top
          (cget [[⟨1, 1, 1, 1⟩, ⟨1, 1, 1, 1⟩], [⟨1, 1, 1, 1⟩, ⟨1, 1, 1, 1⟩],
            [⟨1, 1, 1, 1⟩, ⟨1, 1, 1, 1⟩]] 1 0).top ≠ 0 then
        sumRows [[1, 2], [3, 4], [5, 6]]
          (1 - (min (cget [[⟨1, 1, 1, 1⟩, ⟨1, 1, 1, 1⟩], [⟨1, 1, 1, 1⟩, ⟨1, 1, 1, 1⟩],
              [⟨1, 1, 1, 1⟩, ⟨1, 1, 1, 1⟩]] 1 0).top
            (cget [[⟨1, 1, 1, 1⟩, ⟨1, 1, 1, 1⟩], [⟨1, 1, 1, 1⟩, ⟨1, 1, 1, 1⟩],
              [⟨1, 1, 1, 1⟩, ⟨1, 1, 1, 1⟩]] 1 0).top).toNat)
          ((min (cget [[⟨1, 1, 1, 1⟩, ⟨1, 1, 1, 1⟩], [⟨1, 1, 1, 1⟩, ⟨1, 1, 1, 1⟩],
              [⟨1, 1, 1, 1⟩, ⟨1, 1, 1, 1⟩]] 1 0).top
            (cget [[⟨1, 1, 1, 1⟩, ⟨1, 1, 1, 1⟩], [⟨1, 1, 1, 1⟩, ⟨1, 1, 1, 1⟩],
              [⟨1, 1, 1, 1⟩, ⟨1, 1, 1, 1⟩]] 1 0).top).toNat) 0
      else 0) +
      (if min (cget [[⟨1, 1, 1, 1⟩, ⟨1, 1, 1, 1⟩], [⟨1, 1, 1, 1⟩, ⟨1, 1, 1, 1⟩],
            [⟨1, 1, 1, 1⟩, ⟨1, 1, 1, 1⟩]] 1 0).bot
          (cget [[⟨1, 1, 1, 1⟩, ⟨1, 1, 1, 1⟩], [⟨1, 1, 1, 1⟩, ⟨1, 1, 1, 1⟩],
            [⟨1, 1, 1, 1⟩, ⟨1, 1, 1, 1⟩]] 1 0).bot ≠ 0 then
        sumRows [[1, 2], [3, 4], [5, 6]] (1 + 1)
          ((min (cget [[⟨1, 1, 1, 1⟩, ⟨1, 1, 1, 1⟩], [⟨1, 1, 1, 1⟩, ⟨1, 1, 1, 1⟩],
              [⟨1, 1, 1, 1⟩, ⟨1, 1, 1, 1⟩]] 1 0).bot
            (cget [[⟨1, 1, 1, 1⟩, ⟨1, 1, 1, 1⟩], [⟨1, 1, 1, 1⟩, ⟨1, 1, 1, 1⟩],
              [⟨1, 1, 1, 1⟩, ⟨1, 1, 1, 1⟩]] 1 0).bot).toNat) 0
      else 0) :=
  C6_step4_count [[0, 0], [1, 1], [3, 3], [0, 0]] [[1, 2], [3, 4], [5, 6]]
    [[⟨1, 1, 1, 1⟩, ⟨1, 1, 1, 1⟩], [⟨1, 1, 1, 1⟩, ⟨1, 1, 1, 1⟩],
      [⟨1, 1, 1, 1⟩, ⟨1, 1, 1, 1⟩]]
    [[⟨1, 1, 1, 1⟩, ⟨1, 1, 1, 1⟩], [⟨1, 1, 1, 1⟩, ⟨1, 1, 1, 1⟩],
      [⟨1, 1, 1, 1⟩, ⟨1, 1, 1, 1⟩]]
    (by decide) (by decide) (by decide) (by decide) (by decide) (by decide)
    (by decide) (by decide) (by decide)

/-- Witness for C7: one row of step-1 sums, valid pair (1, 0), arms combining
to right = 1, left = 1. -/
theorem C7_witness :
    mget (cbca_step_2 [[0, 1, 2, 3]] [[⟨0, 0, 0, 0⟩, ⟨1, 1, 0, 0⟩]]
      [[⟨2, 1, 0, 0⟩]] [1] [0]).1 0 1 =
      sget ([[0, 1, 2, 3]].getD 0 []) (((1 : ℕ) : ℤ) +
        min (cget [[⟨0, 0, 0, 0⟩, ⟨1, 1, 0, 0⟩]] 0 1).right
          (cget [[⟨2, 1, 0, 0⟩]] 0 0).right) -
      sget ([[0, 1, 2, 3]].getD 0 []) (((1 : ℕ) : ℤ) -
        min (cget [[⟨0, 0, 0, 0⟩, ⟨1, 1, 0, 0⟩]] 0 1).left
          (cget [[⟨2, 1, 0, 0⟩]] 0 0).left - 1) ∧
    mget (cbca_step_2 [[0, 1, 2, 3]] [[⟨0, 0, 0, 0⟩, ⟨1, 1, 0, 0⟩]]
      [[⟨2, 1, 0, 0⟩]] [1] [0]).2 0 1 =
      ((min (cget [[⟨0, 0, 0, 0⟩, ⟨1, 1, 0, 0⟩]] 0 1).left
          (cget [[⟨2, 1, 0, 0⟩]] 0 0).left +
        min (cget [[⟨0, 0, 0, 0⟩, ⟨1, 1, 0, 0⟩]] 0 1).right
          (cget [[⟨2, 1, 0, 0⟩]] 0 0).right : ℤ) : ℚ) :=
  C7_step2_formula [[0, 1, 2, 3]] [[⟨0, 0, 0, 0⟩, ⟨1, 1, 0, 0⟩]] [[⟨2, 1, 0, 0⟩]]
    (by decide) (by decide) (by decide) (by decide)

/-- Witness for C8: anchor 0 at (0,0), right neighbour 100, threshold 30:
the right arm is forced to 1. -/
theorem C8_witness :
    (cget (cross_support [[some (0 : ℚ), some 100]] 5 30) 0 0).right = 1 :=
  (C8_min_region [[some (0 : ℚ), some 100]] 5 30 0 0 0 (by decide) (by decide)
    (by decide)).2.1 100 (by decide) (by decide) (by norm_num)

/-- Witness for C9: a single-pixel raster with finite value 7, arms within
[0, 3]. -/
theorem C9_witness :
    (0 ≤ (cget (cross_support [[some (7 : ℚ)]] 3 2) 0 0).left ∧
      (cget (cross_support [[some (7 : ℚ)]] 3 2) 0 0).left ≤ 3) ∧
    (0 ≤ (cget (cross_support [[some (7 : ℚ)]] 3 2) 0 0).right ∧
      (cget (cross_support [[some (7 : ℚ)]] 3 2) 0 0).right ≤ 3) ∧
    (0 ≤ (cget (cross_support [[some (7 : ℚ)]] 3 2) 0 0).top ∧
      (cget (cross_support [[some (7 : ℚ)]] 3 2) 0 0).top ≤ 3) ∧
    (0 ≤ (cget (cross_support [[some (7 : ℚ)]] 3 2) 0 0).bot ∧
      (cget (cross_support [[some (7 : ℚ)]] 3 2) 0 0).bot ≤ 3) :=
  (C9_invariants [[some (7 : ℚ)]] 3 2 (by decide) (by norm_num) 0 0
    (by decide) (by decide)).2 7 (by decide)

/-- Witness for C10: a 1x1 slice with nonnegative concrete cross supports. -/
theorem C10_witness :
    0 < mget (layer_sum4 [[some 1]] [[⟨1, 1, 1, 1⟩]] [[⟨1, 1, 1, 1⟩]] [0] [0])
      0 0 + 1 :=
  C10_denominator_pos [[some 1]] [[⟨1, 1, 1, 1⟩]] [[⟨1, 1, 1, 1⟩]] [0] [0]
    (by unfold CrossNonneg; decide) (by unfold CrossNonneg; decide) 0 0

end Cbca
